import Mathlib

/-!
# Verification of the sprync synchronization engine

A shallow embedding of the core of the `sprync` directory-sync tool:
path validation (`pkg/paths/pathutil.go`), the exclude-pattern matcher
(`pkg/paths`), the diff engine (`pkg/pack/diff.go`), the tar archive
codec (`pkg/pack/pack.go`, unpack), and the agent's delete handler
(`cmd/spryncd/main.go`).

Strings are modelled by Lean `String` (Go strings are byte sequences;
the paths involved are UTF-8 and Go's byte-wise operations coincide
with `List Char` operations on `String.data` for the properties at
stake).  Go standard-library path helpers (`path.Clean`,
`filepath.Join`, `filepath.Rel`, `filepath.Dir`, `filepath.Match`,
`strings.Split`, ...) are modelled from their documented semantics on
the component level; on Linux `filepath` and `path` agree (separator
`/`).  File systems are modelled as partial maps from canonical path
strings to nodes, and the tar byte stream is abstracted to the list of
entries (header + body) written through it; the gzip layer is a
faithful codec and is treated as the identity on that list.
-/

/-! ## Go string primitives (byte-level, on `String.data`) -/

/-- Models Go `strings.HasPrefix` (byte-wise). -/
def strStartsWith (s pre : String) : Bool :=
  pre.data.isPrefixOf s.data

/-- Models Go `strings.HasSuffix` (byte-wise). -/
def strEndsWith (s suf : String) : Bool :=
  suf.data.isSuffixOf s.data

/-- Models Go `strings.Contains` (substring search): some suffix of
`s` begins with `sub`. -/
def strContains (s sub : String) : Bool :=
  s.data.tails.any (fun t => sub.data.isPrefixOf t)

/-- Models Go `strings.ContainsRune(p, 0)`: does the string contain a
null character? -/
def strContainsNul (s : String) : Bool :=
  s.data.any (fun c => c = Char.ofNat 0)

/-- Models Go `strings.TrimSuffix`. -/
def strTrimSuffix (s suf : String) : String :=
  if strEndsWith s suf then
    String.mk (s.data.take (s.data.length - suf.data.length))
  else s

/-- Models Go `strings.TrimPrefix`. -/
def strTrimStart (s pre : String) : String :=
  if strStartsWith s pre then
    String.mk (s.data.drop pre.data.length)
  else s

/-- Split a character list at every `/`, keeping empty chunks — the
component-level behaviour of Go `strings.Split(s, "/")`. -/
def splitSlash : List Char → List (List Char)
  | [] => [[]]
  | c :: cs =>
    if c = '/' then [] :: splitSlash cs
    else
      match splitSlash cs with
      | [] => [[c]]
      | h :: t => (c :: h) :: t

/-- Models Go `strings.Split(s, "/")`. -/
def pathComps (s : String) : List String :=
  (splitSlash s.data).map String.mk

/-- Join components with `/` (inverse of `pathComps` on slash-free
components); models Go `strings.Join(comps, "/")`. -/
def joinComps : List String → String
  | [] => ""
  | [c] => c
  | c :: rest => c ++ "/" ++ joinComps rest

/-- Go byte-wise lexicographic comparison on character lists (UTF-8
byte order coincides with scalar-value order). -/
def lexLe : List Char → List Char → Bool
  | [], _ => true
  | _ :: _, [] => false
  | a :: as, b :: bs =>
    if a < b then true
    else if b < a then false
    else lexLe as bs

/-- Go string `<=` (byte-wise lexicographic), as used by
`sort.Strings`. -/
def strLe (a b : String) : Prop := lexLe a.data b.data = true

instance : DecidableRel strLe := fun a b => by
  unfold strLe; infer_instance

/-! ## Go path cleaning (`path.Clean` / `filepath.Clean` on Linux) -/

/-- Models Go `path.IsAbs` / `filepath.IsAbs` on Linux. -/
def goIsAbs (p : String) : Bool := strStartsWith p "/"

/-- One step of the `Clean` component stack: skip empty and `.`
components, `..` pops a previous component when possible (for rooted
paths a leading `..` is dropped, for relative paths it is kept). -/
def cleanStack (rooted : Bool) (stack : List String) (c : String) :
    List String :=
  if c = "" ∨ c = "." then stack
  else if c = ".." then
    match stack with
    | [] => if rooted then [] else [".."]
    | top :: rest => if top = ".." then c :: top :: rest else rest
  else c :: stack

/-- The cleaned component list of a path (in order). -/
def cleanComps (rooted : Bool) (cs : List String) : List String :=
  (cs.foldl (cleanStack rooted) []).reverse

/-- Render a cleaned component list back to a path string, as
`path.Clean` does. -/
def renderPath (rooted : Bool) (m : List String) : String :=
  if rooted then "/" ++ joinComps m
  else if m = [] then "." else joinComps m

/-- Models Go `path.Clean` (= `filepath.Clean` on Linux): lexical
cleaning of `.`, `..` and repeated separators. -/
def pathClean (p : String) : String :=
  if p = "" then "."
  else renderPath (goIsAbs p) (cleanComps (goIsAbs p) (pathComps p))

/-- Models Go `filepath.Join` restricted to two elements (the only
arity the code uses): join the non-empty elements with `/` and clean. -/
def goJoin (a b : String) : String :=
  if a = "" ∧ b = "" then ""
  else if a = "" then pathClean b
  else if b = "" then pathClean a
  else pathClean (a ++ "/" ++ b)

/-- Models Go `filepath.Dir`: everything before the final separator,
cleaned; `.` when there is no separator. -/
def goDir (p : String) : String :=
  let comps := pathComps p
  if comps.length ≤ 1 then "."
  else renderPath (goIsAbs p)
    (cleanComps (goIsAbs p) comps.dropLast)

/-- Drop the longest common prefix of two component lists (the
element-matching loop of Go `filepath.Rel`). -/
def dropCommon : List String → List String → List String × List String
  | a :: as, b :: bs =>
    if a = b then dropCommon as bs else (a :: as, b :: bs)
  | as, bs => (as, bs)

/-- Models Go `filepath.Rel(basepath, targpath)` on Linux (`none` is
Go's error).  Both paths are cleaned; equal paths yield `.`; paths of
different rootedness cannot be made relative; otherwise the common
component prefix is dropped and the remaining base components (if any,
and not themselves `..`) each contribute one `..`.  A lone `""`
remainder corresponds to the zero bytes left at the end of the `/`
root string and counts as exhausted. -/
def goRel (basepath targpath : String) : Option String :=
  let base := pathClean basepath
  let targ := pathClean targpath
  if base = targ then some "."
  else if goIsAbs base ≠ goIsAbs targ then none
  else
    let bs := if base = "." then [] else pathComps base
    let ts := pathComps targ
    let bt := dropCommon bs ts
    if bt.1 = [] ∨ bt.1 = [""] then some (joinComps bt.2)
    else if bt.1.head? = some ".." then none
    else
      let ups := joinComps (List.replicate bt.1.length "..")
      if bt.2 = [] ∨ bt.2 = [""] then some ups
      else some (ups ++ "/" ++ joinComps bt.2)

/-! ## `pkg/paths/pathutil.go` -/

/-- Embeds `paths.ValidateRelPath` (`pkg/paths/pathutil.go`): `none`
models a nil error, `some msg` an error. -/
def ValidateRelPath (p : String) : Option String :=
  if p = "" then some "empty path"
  else if strContainsNul p then some "path contains null byte"
  else if goIsAbs p then some ("absolute path not allowed: " ++ p)
  else
    let cleaned := pathClean p
    if cleaned = "." then some "path resolves to current directory"
    else if cleaned = ".." ∨ strStartsWith cleaned "../" then
      some ("path escapes base directory: " ++ p)
    else none

/-- Embeds `paths.IsWithinDir` (`pkg/paths/pathutil.go`). -/
def IsWithinDir (dir full : String) : Bool :=
  match goRel dir full with
  | none => false
  | some rel =>
    !(rel = "..") && !(strStartsWith rel "../") && !(goIsAbs rel)

/-- Embeds the package-local `isWithinDir` of the unpack file; its body
is identical to `paths.IsWithinDir`. -/
def isWithinDirUnpack (dir full : String) : Bool := IsWithinDir dir full

example : pathClean "a/b/../c" = "a/c" := by decide
example : pathClean "/a/../../x" = "/x" := by decide
example : pathClean "./" = "." := by decide
example : pathClean "a/b/.." = "a" := by decide
example : goDir "a/b/../c" = "a" := by decide
example : goDir "a" = "." := by decide
example : goDir "/a" = "/" := by decide
example : goJoin "root" "a/b/../c" = "root/a/c" := by decide
example : ValidateRelPath "foo/bar.go" = none := by decide
example : ValidateRelPath "foo/../../etc/passwd" ≠ none := by decide
example : ValidateRelPath "." ≠ none := by decide
example : ValidateRelPath "./" ≠ none := by decide
example : ValidateRelPath ".." ≠ none := by decide
example : IsWithinDir "/home/user/project" "/home/user/project/foo" = true := by decide
example : IsWithinDir "/home/user/project" "/etc/passwd" = false := by decide
example : IsWithinDir "/home/user/project" "/home/user/projectX/foo" = false := by decide
example : IsWithinDir "/tmp/a" "/tmp/ab/c" = false := by decide
example : IsWithinDir "/home/user/project/" "/home/user/project/foo" = true := by decide
example : IsWithinDir "/home/user/project" "/home/user/project" = true := by decide

/-! ## `pkg/pack/entry.go` and `pkg/pack/diff.go` -/

/-- Embeds `pack.ManifestEntry` (`pkg/pack/entry.go`). -/
structure ManifestEntry where
  Path : String
  Hash : String
  Mode : Nat
  Size : Nat
deriving DecidableEq, Repr

/-- A Go `map[string]ManifestEntry` observed in one (arbitrary)
iteration order: an association list whose keys are unique
(`ManifestKeysNodup`).  Different iteration orders of the same map are
permutations of each other. -/
abbrev ManifestSeq := List (String × ManifestEntry)

/-- Go map indexing `m[path]` with its `ok` flag folded into
`Option`. -/
def mlookup (k : String) : ManifestSeq → Option ManifestEntry
  | [] => none
  | (k', e) :: rest => if k' = k then some e else mlookup k rest

/-- Key uniqueness: what makes an association list a view of a map. -/
def ManifestKeysNodup (l : ManifestSeq) : Prop := (l.map Prod.fst).Nodup

/-- Embeds `pack.DiffResult` (`pkg/pack/diff.go`). -/
structure DiffResult where
  Uploads : List String
  Deletes : List String
deriving DecidableEq, Repr

/-- Models Go `sort.Strings`: the canonically sorted permutation in
byte-wise lexicographic order. -/
def sortStrings (l : List String) : List String :=
  List.insertionSort strLe l

/-- The upload condition of the first loop of `ComputeDiff`: path
absent from the remote manifest, or hash differs. -/
def uploadPred (remoteM : ManifestSeq)
    (pe : String × ManifestEntry) : Bool :=
  match mlookup pe.1 remoteM with
  | none => true
  | some re => !(pe.2.Hash == re.Hash)

/-- The delete condition of the second loop of `ComputeDiff`: path
absent from the local manifest. -/
def deletePred (localM : ManifestSeq)
    (pe : String × ManifestEntry) : Bool :=
  (mlookup pe.1 localM).isNone

/-- Embeds `pack.ComputeDiff` (`pkg/pack/diff.go`): `localM` and
`remoteM` are the two maps in their iteration order. -/
def ComputeDiff (localM remoteM : ManifestSeq) (deleteEnabled : Bool) :
    DiffResult :=
  let uploads := (localM.filter (uploadPred remoteM)).map Prod.fst
  let deletes :=
    if deleteEnabled then
      (remoteM.filter (deletePred localM)).map Prod.fst
    else []
  ⟨sortStrings uploads, sortStrings deletes⟩

/-! ### Lexicographic order facts for `sortStrings` -/

theorem lexLe_total : ∀ a b : List Char, lexLe a b = true ∨ lexLe b a = true
  | [], _ => Or.inl rfl
  | _ :: _, [] => Or.inr rfl
  | a :: as, b :: bs => by
    rcases lt_trichotomy a b with h | h | h
    · left; simp [lexLe, h]
    · subst h
      rcases lexLe_total as bs with h2 | h2
      · left; simp [lexLe, h2]
      · right; simp [lexLe, h2]
    · right; simp [lexLe, h]

theorem lexLe_trans : ∀ a b c : List Char,
    lexLe a b = true → lexLe b c = true → lexLe a c = true
  | [], _, _, _, _ => rfl
  | a :: as, [], c, h, _ => by simp [lexLe] at h
  | a :: as, b :: bs, [], _, h2 => by simp [lexLe] at h2
  | a :: as, b :: bs, c :: cs, h1, h2 => by
    simp only [lexLe] at h1 h2 ⊢
    rcases lt_trichotomy a b with hab | hab | hab
    · rcases lt_trichotomy b c with hbc | hbc | hbc
      · simp [lt_trans hab hbc]
      · subst hbc; simp [hab]
      · simp [hab, not_lt_of_gt hab] at h1
        simp [hbc, not_lt_of_gt hbc] at h2
    · subst hab
      rcases lt_trichotomy a c with hac | hac | hac
      · simp [hac]
      · subst hac
        simp [lt_irrefl] at h1 h2 ⊢
        exact lexLe_trans _ _ _ h1 h2
      · simp [hac, not_lt_of_gt hac] at h2
    · simp [hab, not_lt_of_gt hab] at h1

theorem lexLe_antisymm : ∀ a b : List Char,
    lexLe a b = true → lexLe b a = true → a = b
  | [], [], _, _ => rfl
  | [], _ :: _, _, h2 => by simp [lexLe] at h2
  | _ :: _, [], h1, _ => by simp [lexLe] at h1
  | a :: as, b :: bs, h1, h2 => by
    simp only [lexLe] at h1 h2
    rcases lt_trichotomy a b with hab | hab | hab
    · simp [hab, not_lt_of_gt hab] at h2
    · subst hab
      simp [lt_irrefl] at h1 h2
      rw [lexLe_antisymm as bs h1 h2]
    · simp [hab, not_lt_of_gt hab] at h1

instance : IsTotal String strLe :=
  ⟨fun a b => lexLe_total a.data b.data⟩

instance : IsTrans String strLe :=
  ⟨fun a b c h1 h2 => lexLe_trans a.data b.data c.data h1 h2⟩

instance : IsAntisymm String strLe :=
  ⟨fun a b h1 h2 => String.ext (lexLe_antisymm a.data b.data h1 h2)⟩

theorem sortStrings_sorted (l : List String) :
    List.Sorted strLe (sortStrings l) :=
  List.sorted_insertionSort strLe l

theorem sortStrings_perm (l : List String) :
    (sortStrings l).Perm l :=
  List.perm_insertionSort strLe l

theorem sortStrings_eq_of_perm {l₁ l₂ : List String}
    (h : l₁.Perm l₂) : sortStrings l₁ = sortStrings l₂ :=
  List.eq_of_perm_of_sorted
    (((sortStrings_perm l₁).trans h).trans (sortStrings_perm l₂).symm)
    (sortStrings_sorted l₁) (sortStrings_sorted l₂)

theorem mem_sortStrings {p : String} {l : List String} :
    p ∈ sortStrings l ↔ p ∈ l :=
  (sortStrings_perm l).mem_iff

/-! ### Map lookup facts -/

theorem mlookup_eq_none_iff {k : String} {l : ManifestSeq} :
    mlookup k l = none ↔ k ∉ l.map Prod.fst := by
  induction l with
  | nil => simp [mlookup]
  | cons pe rest ih =>
    obtain ⟨k', e'⟩ := pe
    by_cases h : k' = k
    · subst h; simp [mlookup]
    · simp [mlookup, h, ih, Ne.symm h]

theorem mlookup_eq_some_iff {k : String} {e : ManifestEntry}
    {l : ManifestSeq} (hn : ManifestKeysNodup l) :
    mlookup k l = some e ↔ (k, e) ∈ l := by
  induction l with
  | nil => simp [mlookup]
  | cons pe rest ih =>
    obtain ⟨k', e'⟩ := pe
    have hcons :
        k' ∉ rest.map Prod.fst ∧ (rest.map Prod.fst).Nodup := by
      have := hn
      simp only [ManifestKeysNodup, List.map_cons, List.nodup_cons]
        at this
      exact this
    have hn' : ManifestKeysNodup rest := hcons.2
    by_cases h : k' = k
    · subst h
      simp only [mlookup, if_pos rfl, List.mem_cons]
      constructor
      · rintro h2; left; simpa using h2.symm
      · rintro (h2 | h2)
        · simp [Prod.ext_iff] at h2; simp [h2]
        · exact absurd (List.mem_map_of_mem Prod.fst h2) hcons.1
    · simp only [mlookup, if_neg h, List.mem_cons, ih hn']
      constructor
      · intro h2; right; exact h2
      · rintro (h2 | h2)
        · exact absurd (congrArg Prod.fst h2).symm h
        · exact h2

theorem mlookup_perm {l₁ l₂ : ManifestSeq} (hp : l₁.Perm l₂)
    (hn : ManifestKeysNodup l₁) (k : String) :
    mlookup k l₁ = mlookup k l₂ := by
  have hn₂ : ManifestKeysNodup l₂ := ((hp.map Prod.fst).nodup_iff).mp hn
  cases h : mlookup k l₁ with
  | none =>
    rw [mlookup_eq_none_iff] at h
    rw [eq_comm, mlookup_eq_none_iff]
    exact fun hm => h (((hp.map Prod.fst).mem_iff).mpr hm)
  | some e =>
    rw [mlookup_eq_some_iff hn] at h
    rw [eq_comm, mlookup_eq_some_iff hn₂]
    exact hp.mem_iff.mp h

/-! ### Diff membership characterization -/

theorem mem_uploads_iff {L R : ManifestSeq} {d : Bool}
    (hL : ManifestKeysNodup L) (p : String) :
    p ∈ (ComputeDiff L R d).Uploads ↔
      ∃ e, mlookup p L = some e ∧
        (mlookup p R = none ∨
          ∃ re, mlookup p R = some re ∧ e.Hash ≠ re.Hash) := by
  simp only [ComputeDiff, mem_sortStrings, List.mem_map]
  constructor
  · rintro ⟨⟨p', e⟩, hmem, rfl⟩
    rw [List.mem_filter] at hmem
    refine ⟨e, (mlookup_eq_some_iff hL).mpr hmem.1, ?_⟩
    have hf := hmem.2
    cases hre : mlookup p' R with
    | none => exact Or.inl rfl
    | some re =>
      right
      refine ⟨re, rfl, ?_⟩
      simp only [uploadPred, hre] at hf
      simpa using hf
  · rintro ⟨e, hsome, hcond⟩
    refine ⟨(p, e), List.mem_filter.mpr
      ⟨(mlookup_eq_some_iff hL).mp hsome, ?_⟩, rfl⟩
    cases hre : mlookup p R with
    | none => simp [uploadPred, hre]
    | some re =>
      rcases hcond with h | ⟨re', hre', hne⟩
      · rw [h] at hre; cases hre
      · rw [hre'] at hre
        cases hre
        simp [uploadPred, hre', hne]

theorem mem_deletes_iff {L R : ManifestSeq} {d : Bool}
    (hR : ManifestKeysNodup R) (p : String) :
    p ∈ (ComputeDiff L R d).Deletes ↔
      d = true ∧ (∃ re, mlookup p R = some re) ∧
        mlookup p L = none := by
  simp only [ComputeDiff, mem_sortStrings]
  cases d with
  | false => simp
  | true =>
    rw [if_pos rfl]
    constructor
    · intro hmem
      rw [List.mem_map] at hmem
      obtain ⟨⟨p', re⟩, hmem, rfl⟩ := hmem
      rw [List.mem_filter] at hmem
      refine ⟨rfl, ⟨re, (mlookup_eq_some_iff hR).mpr hmem.1⟩, ?_⟩
      simpa [deletePred, Option.isNone_iff_eq_none] using hmem.2
    · rintro ⟨-, ⟨re, hre⟩, hnone⟩
      rw [List.mem_map]
      exact ⟨(p, re), List.mem_filter.mpr
        ⟨(mlookup_eq_some_iff hR).mp hre, by
          simp [deletePred, Option.isNone_iff_eq_none, hnone]⟩, rfl⟩

/-- Strictly ascending in byte-wise lexicographic order: sorted and
duplicate-free. -/
def StrictlyAscending (l : List String) : Prop :=
  l.Pairwise (fun a b => strLe a b ∧ a ≠ b)

/-- Example manifests used by the diff witnesses (an S2-style
scenario: one modified file, one added, one removed, one with a mode
change only). -/
def exLocalM : ManifestSeq :=
  [("util.go", ⟨"util.go", "B1", 420, 5⟩),
   ("main.go", ⟨"main.go", "A", 420, 3⟩),
   ("new_file.go", ⟨"new_file.go", "D", 420, 1⟩)]

/-- Remote counterpart of `exLocalM`; `main.go` has the same hash but
a different mode. -/
def exRemoteM : ManifestSeq :=
  [("main.go", ⟨"main.go", "A", 493, 3⟩),
   ("util.go", ⟨"util.go", "B0", 420, 5⟩),
   ("old.go", ⟨"old.go", "E", 420, 2⟩)]

/-- **C4** — For every pair of manifests and every `deleteEnabled`
flag, `ComputeDiff` yields uploads containing exactly the source keys
that are absent from the target or whose hash differs, and deletes
containing exactly the target keys absent from the source when
`deleteEnabled` (and nothing otherwise); an entry with equal hash but
different mode is not uploaded.  Manifests are maps, so the key
uniqueness of the association-list views is assumed. -/
theorem computeDiff_uploads_deletes_spec (L R : ManifestSeq) (d : Bool)
    (hL : ManifestKeysNodup L) (hR : ManifestKeysNodup R) :
    (∀ p, p ∈ (ComputeDiff L R d).Uploads ↔
      ∃ e, mlookup p L = some e ∧
        (mlookup p R = none ∨
          ∃ re, mlookup p R = some re ∧ e.Hash ≠ re.Hash))
    ∧ (∀ p, p ∈ (ComputeDiff L R d).Deletes ↔
        d = true ∧ (∃ re, mlookup p R = some re) ∧
          mlookup p L = none)
    ∧ (∀ p e re, mlookup p L = some e → mlookup p R = some re →
        e.Hash = re.Hash → p ∉ (ComputeDiff L R d).Uploads) := by
  refine ⟨fun p => mem_uploads_iff hL p,
    fun p => mem_deletes_iff hR p, ?_⟩
  intro p e re he hre hhash hmem
  rw [mem_uploads_iff hL p] at hmem
  obtain ⟨e', he', hcond⟩ := hmem
  rw [he] at he'
  cases Option.some.inj he'
  rcases hcond with h | ⟨re', hre', hne⟩
  · rw [h] at hre; cases hre
  · rw [hre'] at hre
    cases Option.some.inj hre
    exact hne hhash

/-- Witness for `computeDiff_uploads_deletes_spec` at the concrete
S2-style manifests. -/
theorem computeDiff_uploads_deletes_spec_witness :
    ManifestKeysNodup exLocalM ∧ ManifestKeysNodup exRemoteM ∧
    ((∀ p, p ∈ (ComputeDiff exLocalM exRemoteM true).Uploads ↔
      ∃ e, mlookup p exLocalM = some e ∧
        (mlookup p exRemoteM = none ∨
          ∃ re, mlookup p exRemoteM = some re ∧ e.Hash ≠ re.Hash))
    ∧ (∀ p, p ∈ (ComputeDiff exLocalM exRemoteM true).Deletes ↔
        true = true ∧ (∃ re, mlookup p exRemoteM = some re) ∧
          mlookup p exLocalM = none)
    ∧ (∀ p e re, mlookup p exLocalM = some e →
        mlookup p exRemoteM = some re → e.Hash = re.Hash →
        p ∉ (ComputeDiff exLocalM exRemoteM true).Uploads)) :=
  ⟨by unfold ManifestKeysNodup; decide,
   by unfold ManifestKeysNodup; decide,
   computeDiff_uploads_deletes_spec exLocalM exRemoteM true
     (by unfold ManifestKeysNodup; decide)
     (by unfold ManifestKeysNodup; decide)⟩

/-- **C5** — Uploads and deletes are disjoint, and each is strictly
ascending in lexicographic order (sorted, duplicate-free). -/
theorem computeDiff_disjoint_strictAscending (L R : ManifestSeq)
    (d : Bool) (hL : ManifestKeysNodup L) (hR : ManifestKeysNodup R) :
    (∀ p, p ∈ (ComputeDiff L R d).Uploads →
      p ∉ (ComputeDiff L R d).Deletes)
    ∧ StrictlyAscending (ComputeDiff L R d).Uploads
    ∧ StrictlyAscending (ComputeDiff L R d).Deletes := by
  refine ⟨?_, ?_, ?_⟩
  · intro p hu hd
    rw [mem_uploads_iff hL p] at hu
    rw [mem_deletes_iff hR p] at hd
    obtain ⟨e, he, -⟩ := hu
    rw [hd.2.2] at he
    cases he
  · show StrictlyAscending
      (sortStrings ((L.filter (uploadPred R)).map Prod.fst))
    have hnd : ((L.filter (uploadPred R)).map Prod.fst).Nodup :=
      (List.Sublist.map Prod.fst (List.filter_sublist L)).nodup hL
    have hnd2 := ((sortStrings_perm _).nodup_iff).mpr hnd
    exact (sortStrings_sorted _).and hnd2
  · show StrictlyAscending (sortStrings (if d = true then
      (R.filter (deletePred L)).map Prod.fst else []))
    have hnd : (if d = true then
        (R.filter (deletePred L)).map Prod.fst else []).Nodup := by
      cases d with
      | false => simp
      | true =>
        rw [if_pos rfl]
        exact (List.Sublist.map Prod.fst
          (List.filter_sublist R)).nodup hR
    have hnd2 := ((sortStrings_perm _).nodup_iff).mpr hnd
    exact (sortStrings_sorted _).and hnd2

/-- Witness for `computeDiff_disjoint_strictAscending` at the concrete
S2-style manifests. -/
theorem computeDiff_disjoint_strictAscending_witness :
    ManifestKeysNodup exLocalM ∧ ManifestKeysNodup exRemoteM ∧
    ((∀ p, p ∈ (ComputeDiff exLocalM exRemoteM true).Uploads →
      p ∉ (ComputeDiff exLocalM exRemoteM true).Deletes)
    ∧ StrictlyAscending (ComputeDiff exLocalM exRemoteM true).Uploads
    ∧ StrictlyAscending
        (ComputeDiff exLocalM exRemoteM true).Deletes) :=
  ⟨by unfold ManifestKeysNodup; decide,
   by unfold ManifestKeysNodup; decide,
   computeDiff_disjoint_strictAscending exLocalM exRemoteM true
     (by unfold ManifestKeysNodup; decide)
     (by unfold ManifestKeysNodup; decide)⟩

/-- **C8** — `ComputeDiff` is deterministic: two calls on the same two
maps (any iteration orders, i.e. any permutations of the same
association lists) with the same flag return identical results. -/
theorem computeDiff_deterministic (L₁ L₂ R₁ R₂ : ManifestSeq)
    (d : Bool) (hL : ManifestKeysNodup L₁) (hR : ManifestKeysNodup R₁)
    (hpL : L₁.Perm L₂) (hpR : R₁.Perm R₂) :
    ComputeDiff L₁ R₁ d = ComputeDiff L₂ R₂ d := by
  have hfR : uploadPred R₁ = uploadPred R₂ := by
    funext pe; unfold uploadPred; rw [mlookup_perm hpR hR pe.1]
  have hfL : deletePred L₁ = deletePred L₂ := by
    funext pe; unfold deletePred; rw [mlookup_perm hpL hL pe.1]
  simp only [ComputeDiff]
  rw [hfR, hfL]
  congr 1
  · exact sortStrings_eq_of_perm ((hpL.filter _).map Prod.fst)
  · cases d with
    | false => rfl
    | true =>
      simp only [if_pos rfl]
      exact sortStrings_eq_of_perm ((hpR.filter _).map Prod.fst)

/-- Witness for `computeDiff_deterministic`: the example manifests in
two different iteration orders. -/
theorem computeDiff_deterministic_witness :
    ManifestKeysNodup exLocalM ∧ ManifestKeysNodup exRemoteM ∧
    exLocalM.Perm exLocalM.reverse ∧ exRemoteM.Perm exRemoteM.reverse ∧
    ComputeDiff exLocalM exRemoteM true =
      ComputeDiff exLocalM.reverse exRemoteM.reverse true :=
  ⟨by unfold ManifestKeysNodup; decide,
   by unfold ManifestKeysNodup; decide,
   by decide, by decide,
   computeDiff_deterministic exLocalM exLocalM.reverse exRemoteM
     exRemoteM.reverse true
     (by unfold ManifestKeysNodup; decide)
     (by unfold ManifestKeysNodup; decide)
     (by decide) (by decide)⟩

/-! ## C3 — path validation -/

/-- The §3 manifest-path predicate, stated as the spec words it:
non-empty, no null byte, not absolute, clean form not `.`, and clean
form not resolving above the root. -/
def SpecValidRelPath (p : String) : Prop :=
  p ≠ "" ∧ strContainsNul p = false ∧ goIsAbs p = false ∧
  pathClean p ≠ "." ∧ pathClean p ≠ ".." ∧
  strStartsWith (pathClean p) "../" = false

theorem validateRelPath_none_iff (p : String) :
    ValidateRelPath p = none ↔ SpecValidRelPath p := by
  unfold ValidateRelPath SpecValidRelPath
  dsimp only
  split_ifs <;> simp_all [not_or] <;> tauto

/-- **C3** — `ValidateRelPath(P)` returns nil iff `P` is non-empty,
contains no null byte, is not absolute, `path.Clean(P)` is not `.`,
and `path.Clean(P)` does not resolve above the root (is not `..` and
does not start with `../`). -/
theorem validateRelPath_iff_spec (p : String) :
    ValidateRelPath p = none ↔ SpecValidRelPath p :=
  validateRelPath_none_iff p

/-! ## `filepath.Match` and the exclude matcher (`pkg/paths`) -/

/-- One character-class item of a glob pattern, with `\\` escaping;
`none` models Go's `ErrBadPattern` (empty, or bare `-` / `]`). -/
def getEsc : List Char → Option (Char × List Char)
  | [] => none
  | c :: cs =>
    if c = '-' ∨ c = ']' then none
    else if c = '\\' then
      match cs with
      | [] => none
      | e :: es => some (e, es)
    else some (c, cs)

/-- Parse the body of a `[...]` class (after an optional `^`): the
`lo-hi` ranges and the pattern remainder after `]`.  The fuel is an
upper bound on the characters consumed; `none` models a malformed
class. -/
def classRanges : Nat → List Char → Option (List (Char × Char) × List Char)
  | 0, _ => none
  | fuel + 1, cs =>
    match getEsc cs with
    | none => none
    | some (lo, cs1) =>
      match cs1 with
      | '-' :: cs2 =>
        match getEsc cs2 with
        | none => none
        | some (hi, cs3) =>
          match cs3 with
          | ']' :: rest => some ([(lo, hi)], rest)
          | _ =>
            match classRanges fuel cs3 with
            | none => none
            | some (rs, rest) => some ((lo, hi) :: rs, rest)
      | ']' :: rest => some ([(lo, lo)], rest)
      | _ =>
        match classRanges fuel cs1 with
        | none => none
        | some (rs, rest) => some ((lo, lo) :: rs, rest)

/-- The star of a glob may swallow any run of characters of the
current segment: the candidate remainders tried by `Match`'s star
loop (the original position, then one more byte at a time up to and
including the first separator position). -/
def starPositions : List Char → List (List Char)
  | [] => [[]]
  | c :: cs => (c :: cs) :: (if c = '/' then [] else starPositions cs)

/-- Models Go `path/filepath.Match` on character lists: `*` matches
any run without a separator, `?` one non-separator character, `[...]`
a character class (`^` negation, `-` ranges, `\\` escapes), `\\c` the
literal `c`; a malformed pattern matches nothing.  The fuel is an
upper bound on the pattern length (each step consumes at least one
pattern character). -/
def globFuel : Nat → List Char → List Char → Bool
  | _, [], name => name.isEmpty
  | 0, _ :: _, _ => false
  | fuel + 1, '*' :: ps, name =>
    (starPositions name).any (globFuel fuel ps)
  | fuel + 1, '?' :: ps, name =>
    match name with
    | [] => false
    | c :: cs => !(c = '/') && globFuel fuel ps cs
  | fuel + 1, '\\' :: ps, name =>
    match ps, name with
    | e :: ps2, c :: cs => (c = e) && globFuel fuel ps2 cs
    | _, _ => false
  | fuel + 1, '[' :: ps, name =>
    match name with
    | [] => false
    | c :: cs =>
      let negated := ps.head? = some '^'
      let body := if negated then ps.tail else ps
      match classRanges body.length body with
      | none => false
      | some (ranges, rest) =>
        let inside := ranges.any fun r => r.1 ≤ c ∧ c ≤ r.2
        (inside != negated) && globFuel fuel rest cs
  | fuel + 1, p :: ps, name =>
    match name with
    | [] => false
    | c :: cs => (c = p) && globFuel fuel ps cs

/-- Models Go `filepath.Match(pattern, name)` with the error dropped,
exactly as the matcher uses it (`matched, _ := filepath.Match(...)`). -/
def goMatch (pattern name : String) : Bool :=
  globFuel pattern.data.length pattern.data name.data

/-- Models Go `strings.Split(pattern, "**")`: greedy left-to-right
scan for non-overlapping occurrences of `**`. -/
def splitOnStarStar : List Char → List (List Char)
  | [] => [[]]
  | [c] => [[c]]
  | c :: c2 :: cs =>
    if c = '*' ∧ c2 = '*' then [] :: splitOnStarStar cs
    else
      match splitOnStarStar (c2 :: cs) with
      | [] => [[c]]
      | h :: t => (c :: h) :: t

/-- The position of the first `**` of a pattern: the part before it
and the remainder after it (`none` when there is no `**`). -/
def splitFirstStarStar : List Char → Option (List Char × List Char)
  | [] => none
  | [_] => none
  | c :: c2 :: cs =>
    if c = '*' ∧ c2 = '*' then some ([], cs)
    else (splitFirstStarStar (c2 :: cs)).map fun pr => (c :: pr.1, pr.2)

/-- String wrapper for `splitOnStarStar`. -/
def splitStarStar (s : String) : List String :=
  (splitOnStarStar s.data).map String.mk

/-- Embeds `paths.matchSuffix` (`pkg/paths`, exclude matcher file):
some slash-separated tail of `relPath` glob-matches `suffix`. -/
def matchSuffix (suffix relPath : String) : Bool :=
  let parts := pathComps relPath
  (List.range parts.length).any fun i =>
    goMatch suffix (joinComps (parts.drop i))

/-- The two-part body of `matchDoublestar` (its behaviour once the
split produced exactly the parts before and after the `**`): trim a
trailing `/` from the prefix and a leading `/` from the suffix; empty
prefix and suffix match everything; empty prefix defers to
`matchSuffix`; empty suffix asks for the `prefix/` start (or equality);
otherwise both. -/
def dsParts (pre0 suf0 relPath : String) : Bool :=
  let pre := strTrimSuffix pre0 "/"
  let suf := strTrimStart suf0 "/"
  if pre = "" ∧ suf = "" then true
  else if pre = "" then matchSuffix suf relPath
  else if suf = "" then
    strStartsWith relPath (pre ++ "/") || relPath == pre
  else if !strStartsWith relPath (pre ++ "/") then false
  else matchSuffix suf (strTrimStart relPath (pre ++ "/"))

/-- Embeds `paths.matchDoublestar` (`pkg/paths`, exclude matcher
file): split on `**`, reject unless exactly two parts, then the
two-part rule. -/
def matchDoublestar (pattern relPath : String) : Bool :=
  let parts := splitStarStar pattern
  if parts.length ≠ 2 then false
  else dsParts (parts.getD 0 "") (parts.getD 1 "") relPath

/-- Embeds `paths.matchPathPattern`. -/
def matchPathPattern (pattern relPath : String) : Bool :=
  if strContains pattern "**" then matchDoublestar pattern relPath
  else goMatch pattern relPath

/-- Embeds `paths.matchPattern`. -/
def matchPattern (pattern relPath : String) : Bool :=
  let pat := strTrimSuffix pattern "/"
  if strContains pat "/" then matchPathPattern pat relPath
  else
    let parts := pathComps relPath
    if parts.any (fun part => goMatch pat part) then true
    else if strContains pat "**" then matchDoublestar pat relPath
    else false

/-- Embeds `(*paths.ExcludeMatcher).Match`: any pattern matching. -/
def excludeMatch (patterns : List String) (relPath : String) : Bool :=
  patterns.any fun pat => matchPattern pat relPath

example : matchPattern "vendor" "src/vendor" = true := by decide
example : matchPattern "vendor" "vendor.go" = false := by decide
example : matchPattern "logs/" "logs/app.log" = true := by decide
example : matchPattern "*.o" "deep/nested/thing.o" = true := by decide
example : matchPattern "*.o" "foo.obj" = false := by decide
example : matchPattern "?.tmp" "src/x.tmp" = true := by decide
example : matchPattern "?.tmp" "long.tmp" = false := by decide
example : matchPattern "**/*.test.js" "a/b/c/d.test.js" = true := by decide
example : matchPattern "**/*.test.js" "src/foo.spec.js" = false := by decide
example : matchPattern "src/**/*.pb.go" "src/api/v1/types.pb.go" = true := by
  decide
example : matchPattern "src/**/*.pb.go" "pkg/types.pb.go" = false := by decide
example : matchPattern "src/**/*.pb.go" "src/schema.pb.go" = true := by decide
example : matchPattern "**" "a/b/c" = true := by decide
example : matchPattern "build/**" "build/dist/bundle.js" = true := by decide
example : matchPattern "build/**" "src/build.go" = false := by decide
example : matchPattern "doc/*.html" "doc/index.html" = true := by decide
example : matchPattern "doc/*.html" "doc/sub/page.html" = false := by decide
example : matchPattern ".env.*" "deploy/.env.production" = true := by decide
example : excludeMatch [".git", "vendor", "build/", "node_modules",
  ".env", ".env.*"] "src/main.go" = false := by decide
example : excludeMatch [".git", "vendor"] ".git/config" = true := by decide

/-! ## C7 — doublestar pattern semantics -/

theorem strContains_iff (s sub : String) :
    strContains s sub = true ↔ sub.data <:+: s.data := by
  unfold strContains
  rw [List.any_eq_true]
  constructor
  · rintro ⟨t, ht, hp⟩
    rw [List.mem_tails] at ht
    rw [List.isPrefixOf_iff_prefix] at hp
    exact List.infix_iff_prefix_suffix.mpr ⟨t, hp, ht⟩
  · intro h
    obtain ⟨t, hp, ht⟩ := List.infix_iff_prefix_suffix.mp h
    exact ⟨t, (List.mem_tails _ _).mpr ht,
      (List.isPrefixOf_iff_prefix).mpr hp⟩

theorem splitOnStarStar_eq_first (cs : List Char) :
    splitOnStarStar cs =
      match splitFirstStarStar cs with
      | none => [cs]
      | some pr => pr.1 :: splitOnStarStar pr.2 := by
  induction cs using splitFirstStarStar.induct with
  | case1 => rfl
  | case2 c => rfl
  | case3 c c2 cs h =>
    simp only [splitOnStarStar, splitFirstStarStar, if_pos h]
  | case4 c c2 cs h ih =>
    simp only [splitOnStarStar, splitFirstStarStar, if_neg h]
    rw [ih]
    cases h2 : splitFirstStarStar (c2 :: cs) with
    | none => rfl
    | some pr => rfl

theorem splitFirstStarStar_none_iff (s : List Char) :
    splitFirstStarStar s = none ↔ ¬ (['*', '*'] <:+: s) := by
  induction s using splitFirstStarStar.induct with
  | case1 => simp [splitFirstStarStar]
  | case2 c =>
    simp only [splitFirstStarStar, true_iff]
    rintro ⟨a, b, hab⟩
    have hlen := congrArg List.length hab
    simp at hlen
    omega
  | case3 c c2 cs h =>
    simp only [splitFirstStarStar, if_pos h]
    exact iff_of_false (by simp)
      (not_not_intro ⟨[], cs, by simp [h.1, h.2]⟩)
  | case4 c c2 cs h ih =>
    simp only [splitFirstStarStar, if_neg h]
    cases hx : splitFirstStarStar (c2 :: cs) with
    | none =>
      have hni : ¬ (['*', '*'] <:+: c2 :: cs) := ih.mp hx
      simp only [Option.map_none', true_iff]
      rintro ⟨a, b, hab⟩
      cases a with
      | nil =>
        simp only [List.nil_append, List.cons_append,
          List.cons.injEq] at hab
        exact h ⟨hab.1.symm, hab.2.1.symm⟩
      | cons x a' =>
        simp only [List.cons_append, List.cons.injEq] at hab
        exact hni ⟨a', b, hab.2⟩
    | some pr =>
      have hinf : ['*', '*'] <:+: c2 :: cs := by
        by_contra hn
        rw [← ih] at hn
        rw [hx] at hn
        cases hn
      obtain ⟨a, b, hab⟩ := hinf
      exact iff_of_false (by simp)
        (not_not_intro ⟨c :: a, b, by rw [← hab]; simp⟩)

theorem strContains_starstar_trimSlash {s : String}
    (h : strContains s "**" = true) :
    strContains (strTrimSuffix s "/") "**" = true := by
  unfold strTrimSuffix
  split_ifs with he
  · have hsuf : ("/" : String).data <:+ s.data := by
      unfold strEndsWith at he
      exact List.isSuffixOf_iff_suffix.mp he
    obtain ⟨l, hl⟩ := hsuf
    rw [strContains_iff] at h ⊢
    show ("**" : String).data <:+: (s.data.take
      (s.data.length - ("/" : String).data.length))
    have htake : s.data.take
        (s.data.length - ("/" : String).data.length) = l := by
      rw [← hl]
      have hlen : (l ++ ("/" : String).data).length -
          ("/" : String).data.length = l.length := by
        simp
      rw [hlen, List.take_left]
    rw [htake]
    rw [← hl] at h
    have h2c : ("**" : String).data = ['*', '*'] := rfl
    have h1c : ("/" : String).data = ['/'] := rfl
    rw [h2c] at h ⊢
    rw [h1c] at h
    obtain ⟨a, b, hab⟩ := h
    rcases List.eq_nil_or_concat b with rfl | ⟨b', x, rfl⟩
    · exfalso
      have hrev := congrArg List.reverse hab
      simp [List.reverse_append] at hrev
    · have hrev := congrArg List.reverse hab
      rw [List.concat_eq_append] at hrev
      simp only [List.reverse_append, List.reverse_cons,
        List.reverse_nil, List.nil_append, List.cons_append,
        List.append_assoc, List.cons.injEq] at hrev
      refine ⟨a, b', ?_⟩
      have h3 := congrArg List.reverse hrev.2
      simpa [List.reverse_append] using h3
  · exact h

/-- The doublestar rule exactly as the claim words it: split the
pattern on the FIRST `**` into prefix and suffix, then the two-part
rule (begins with `prefix/` or equals prefix, some slash-separated
tail of the remainder glob-matches suffix; `**` alone matches every
path). -/
def dsFirstRule (pattern relPath : String) : Bool :=
  match splitFirstStarStar pattern.data with
  | none => false
  | some pr => dsParts (String.mk pr.1) (String.mk pr.2) relPath

/-- The corrected doublestar rule: the code splits on every
occurrence of `**` and rejects unless there is exactly one; with
exactly one occurrence the two-part rule applies. -/
def dsExactlyOneRule (pattern relPath : String) : Bool :=
  match splitFirstStarStar pattern.data with
  | none => false
  | some pr =>
    if strContains (String.mk pr.2) "**" then false
    else dsParts (String.mk pr.1) (String.mk pr.2) relPath

/-- What the matcher actually computes for a pattern containing `**`:
after stripping a trailing `/`, a pattern with a slash goes through
the exactly-one-`**` rule; a slash-free pattern also matches when some
single path segment glob-matches the whole pattern. -/
def c7AmendedRule (pattern relPath : String) : Bool :=
  let pat := strTrimSuffix pattern "/"
  if strContains pat "/" then dsExactlyOneRule pat relPath
  else
    (pathComps relPath).any (fun part => goMatch pat part) ||
      dsExactlyOneRule pat relPath

theorem splitOnStarStar_ne_nil : ∀ cs : List Char,
    splitOnStarStar cs ≠ []
  | [] => by simp [splitOnStarStar]
  | [c] => by simp [splitOnStarStar]
  | c :: c2 :: cs => by
    simp only [splitOnStarStar]
    split_ifs
    · simp
    · cases h : splitOnStarStar (c2 :: cs) <;> simp

theorem splitFirstStarStar_some_infix {s : List Char}
    {pr : List Char × List Char}
    (h : splitFirstStarStar s = some pr) : ['*', '*'] <:+: s := by
  by_contra hn
  rw [← splitFirstStarStar_none_iff] at hn
  rw [h] at hn
  cases hn

theorem matchDoublestar_eq_exactlyOne (pattern relPath : String) :
    matchDoublestar pattern relPath =
      dsExactlyOneRule pattern relPath := by
  unfold matchDoublestar dsExactlyOneRule splitStarStar
  dsimp only
  rw [splitOnStarStar_eq_first pattern.data]
  cases h : splitFirstStarStar pattern.data with
  | none => simp
  | some pr =>
    dsimp only
    rw [splitOnStarStar_eq_first pr.2]
    cases h2 : splitFirstStarStar pr.2 with
    | none =>
      have hc : strContains (String.mk pr.2) "**" = false := by
        rw [Bool.eq_false_iff, Ne, strContains_iff]
        exact (splitFirstStarStar_none_iff pr.2).mp h2
      simp [hc]
    | some pr2 =>
      have hc : strContains (String.mk pr.2) "**" = true := by
        rw [strContains_iff]
        exact splitFirstStarStar_some_infix h2
      simp only [hc, if_true]
      have hne : splitOnStarStar pr2.2 ≠ [] := splitOnStarStar_ne_nil _
      have hlen : (List.map String.mk
          (pr.1 :: pr2.1 :: splitOnStarStar pr2.2)).length ≠ 2 := by
        simp only [List.length_map, List.length_cons]
        intro hcon
        have hz : (splitOnStarStar pr2.2).length = 0 := by omega
        exact hne (List.length_eq_zero.mp hz)
      rw [if_pos hlen]

/-- **C7 counterexample** — the pattern `a/**/**` contains `**`, and
on the path `a/b` the claim's split-on-first-`**` rule matches, but
the matcher returns false: `strings.Split` yields three parts and
`matchDoublestar` rejects any pattern with more than one `**`. -/
theorem matchDoublestar_firstSplit_counterexample :
    strContains "a/**/**" "**" = true ∧
    matchPattern "a/**/**" "a/b" = false ∧
    dsFirstRule "a/**/**" "a/b" = true := by decide

/-- **C7 (amended)** — for every pattern containing `**` and every
path, the matcher behaves as follows: after stripping one trailing
`/`, it splits the pattern on `**` and requires exactly one
occurrence (a pattern with several `**` matches nothing through the
doublestar rule); with exactly one occurrence, the path matches when
it begins with `prefix/` (or equals the prefix) and some
slash-separated tail of the remainder glob-matches the suffix, `**`
alone matching every path; a slash-free pattern containing `**` also
matches when any single path segment glob-matches the whole
pattern. -/
theorem matchPattern_doublestar_amended (pattern relPath : String)
    (h : strContains pattern "**" = true) :
    matchPattern pattern relPath = c7AmendedRule pattern relPath := by
  unfold matchPattern c7AmendedRule
  dsimp only
  have hpat : strContains (strTrimSuffix pattern "/") "**" = true :=
    strContains_starstar_trimSlash h
  by_cases hs : strContains (strTrimSuffix pattern "/") "/" = true
  · rw [if_pos hs, if_pos hs]
    unfold matchPathPattern
    rw [if_pos hpat]
    exact matchDoublestar_eq_exactlyOne _ _
  · rw [if_neg hs, if_neg hs]
    by_cases ha : (pathComps relPath).any
        (fun part => goMatch (strTrimSuffix pattern "/") part) = true
    · rw [if_pos ha, ha, Bool.true_or]
    · rw [if_neg ha, if_pos hpat]
      rw [Bool.not_eq_true] at ha
      rw [ha, Bool.false_or]
      exact matchDoublestar_eq_exactlyOne _ _

/-- Witness for `matchPattern_doublestar_amended` at the pattern
`src/**/*.pb.go` and path `src/api/v1/types.pb.go`. -/
theorem matchPattern_doublestar_amended_witness :
    strContains "src/**/*.pb.go" "**" = true ∧
    matchPattern "src/**/*.pb.go" "src/api/v1/types.pb.go" =
      c7AmendedRule "src/**/*.pb.go" "src/api/v1/types.pb.go" :=
  ⟨by decide, matchPattern_doublestar_amended "src/**/*.pb.go"
    "src/api/v1/types.pb.go" (by decide)⟩

/-! ## Component-level path lemmas -/

/-- A path component in canonical position: non-empty, not a dot
component, and free of separators. -/
def NiceComp (c : String) : Prop :=
  c ≠ "" ∧ c ≠ "." ∧ c ≠ ".." ∧ '/' ∉ c.data

theorem splitSlash_ne_nil : ∀ l : List Char, splitSlash l ≠ []
  | [] => by simp [splitSlash]
  | c :: cs => by
    simp only [splitSlash]
    split_ifs
    · simp
    · cases h : splitSlash cs <;> simp

theorem splitSlash_cons_slash (cs : List Char) :
    splitSlash ('/' :: cs) = [] :: splitSlash cs := by
  simp [splitSlash]

theorem splitSlash_cons_other {c : Char} (hc : ¬ c = '/')
    (cs : List Char) :
    splitSlash (c :: cs) = match splitSlash cs with
      | [] => [[c]]
      | h :: t => (c :: h) :: t := by
  simp [splitSlash, hc]

theorem splitSlash_append : ∀ (a b : List Char),
    splitSlash (a ++ '/' :: b) = splitSlash a ++ splitSlash b
  | [], b => by simp [splitSlash]
  | c :: cs, b => by
    have ih := splitSlash_append cs b
    by_cases hc : c = '/'
    · subst hc
      show splitSlash ('/' :: (cs ++ '/' :: b)) = _
      rw [splitSlash_cons_slash, ih, splitSlash_cons_slash]
      simp
    · show splitSlash (c :: (cs ++ '/' :: b)) = _
      rw [splitSlash_cons_other hc, ih, splitSlash_cons_other hc]
      cases h : splitSlash cs with
      | nil => exact absurd h (splitSlash_ne_nil cs)
      | cons x xs => simp

theorem splitSlash_no_slash : ∀ {l : List Char}, '/' ∉ l →
    splitSlash l = [l]
  | [], _ => rfl
  | c :: cs, h => by
    have hc : ¬ c = '/' := fun hx => h (hx ▸ List.mem_cons_self c cs)
    have hcs : '/' ∉ cs := fun hx => h (List.mem_cons_of_mem c hx)
    rw [splitSlash_cons_other hc, splitSlash_no_slash hcs]

theorem splitSlash_chunk_no_slash : ∀ {l ch : List Char},
    ch ∈ splitSlash l → '/' ∉ ch := by
  intro l
  induction l with
  | nil =>
    intro ch h
    simp [splitSlash] at h
    simp [h]
  | cons c cs ih =>
    intro ch h
    by_cases hc : c = '/'
    · subst hc
      rw [splitSlash_cons_slash] at h
      rcases List.mem_cons.mp h with rfl | h2
      · simp
      · exact ih h2
    · rw [splitSlash_cons_other hc] at h
      cases hs : splitSlash cs with
      | nil => exact absurd hs (splitSlash_ne_nil cs)
      | cons x xs =>
        rw [hs] at h
        dsimp only at h
        rcases List.mem_cons.mp h with rfl | h2
        · intro hmem
          rcases List.mem_cons.mp hmem with rfl | h3
          · exact hc rfl
          · exact ih (hs ▸ List.mem_cons_self x xs) h3
        · exact ih (hs ▸ List.mem_cons_of_mem x h2)

theorem pathComps_ne_nil (s : String) : pathComps s ≠ [] := by
  unfold pathComps
  intro h
  exact splitSlash_ne_nil s.data (List.map_eq_nil_iff.mp h)

theorem pathComps_no_slash {s : String} {c : String}
    (h : c ∈ pathComps s) : '/' ∉ c.data := by
  unfold pathComps at h
  obtain ⟨ch, hch, rfl⟩ := List.mem_map.mp h
  exact splitSlash_chunk_no_slash hch

theorem pathComps_append_slash (a b : String) :
    pathComps (a ++ "/" ++ b) = pathComps a ++ pathComps b := by
  unfold pathComps
  have hdata : (a ++ "/" ++ b).data = a.data ++ '/' :: b.data := by
    rw [String.data_append, String.data_append]
    simp
  rw [hdata, splitSlash_append, List.map_append]

theorem pathComps_slash_cons (s : String) :
    pathComps ("/" ++ s) = "" :: pathComps s := by
  unfold pathComps
  have hdata : ("/" ++ s).data = '/' :: s.data := by
    rw [String.data_append]
    rfl
  rw [hdata]
  show (splitSlash ('/' :: s.data)).map String.mk = _
  simp only [splitSlash, if_pos rfl, List.map_cons]
  rfl

theorem pathComps_joinComps : ∀ {ms : List String}, ms ≠ [] →
    (∀ c ∈ ms, '/' ∉ c.data) → pathComps (joinComps ms) = ms
  | [], h, _ => absurd rfl h
  | [c], _, hs => by
    show pathComps c = [c]
    unfold pathComps
    rw [splitSlash_no_slash (hs c (List.mem_singleton_self c))]
    rfl
  | c :: d :: rest, _, hs => by
    show pathComps (c ++ "/" ++ joinComps (d :: rest)) = _
    rw [pathComps_append_slash]
    rw [pathComps_joinComps (by simp)
      (fun x hx => hs x (List.mem_cons_of_mem c hx))]
    unfold pathComps
    rw [splitSlash_no_slash (hs c (List.mem_cons_self c _))]
    rfl

theorem cleanStack_skip (r : Bool) (s : List String) {c : String}
    (h : c = "" ∨ c = ".") : cleanStack r s c = s := by
  unfold cleanStack
  rw [if_pos h]

theorem cleanStack_push (r : Bool) (s : List String) {c : String}
    (h1 : ¬(c = "" ∨ c = ".")) (h2 : c ≠ "..") :
    cleanStack r s c = c :: s := by
  unfold cleanStack
  rw [if_neg h1, if_neg h2]

theorem cleanStack_dotdot_pop (r : Bool) {top : String}
    (rest : List String) (h : top ≠ "..") :
    cleanStack r (top :: rest) ".." = rest := by
  unfold cleanStack
  rw [if_neg (by simp), if_pos rfl]
  simp [h]

theorem cleanStack_dotdot_dotdot (r : Bool) (rest : List String) :
    cleanStack r (".." :: rest) ".." = ".." :: ".." :: rest := by
  unfold cleanStack
  rw [if_neg (by simp), if_pos rfl]
  simp

theorem cleanStack_dotdot_nil (r : Bool) :
    cleanStack r [] ".." = if r then [] else [".."] := by
  unfold cleanStack
  rw [if_neg (by simp), if_pos rfl]

theorem foldl_cleanStack_nice (r : Bool) :
    ∀ (ms : List String) (s : List String),
    (∀ c ∈ ms, NiceComp c) →
    List.foldl (cleanStack r) s ms = ms.reverse ++ s
  | [], s, _ => by simp
  | c :: ms, s, h => by
    have hc := h c (List.mem_cons_self c ms)
    rw [List.foldl_cons,
      cleanStack_push r s (by simp [hc.1, hc.2.1]) hc.2.2.1,
      foldl_cleanStack_nice r ms (c :: s)
        (fun x hx => h x (List.mem_cons_of_mem c hx))]
    simp

/-- Stacks reachable by `cleanStack` consist of canonical components
over a run of `..` at the bottom. -/
def StackShape (st : List String) : Prop :=
  ∃ m k, st = m ++ List.replicate k ".." ∧ ∀ c ∈ m, NiceComp c

theorem stackShape_nil : StackShape [] := ⟨[], 0, rfl, by simp⟩

theorem cleanStack_shape (r : Bool) {st : List String} {c : String}
    (hsl : '/' ∉ c.data) (h : StackShape st) :
    StackShape (cleanStack r st c) := by
  obtain ⟨m, k, rfl, hm⟩ := h
  by_cases h1 : c = "" ∨ c = "."
  · rw [cleanStack_skip r _ h1]; exact ⟨m, k, rfl, hm⟩
  · by_cases h2 : c = ".."
    · subst h2
      cases m with
      | nil =>
        cases k with
        | zero =>
          rw [List.nil_append, List.replicate_zero, cleanStack_dotdot_nil]
          cases r
          · exact ⟨[], 1, rfl, by simp⟩
          · exact ⟨[], 0, rfl, by simp⟩
        | succ k =>
          rw [List.nil_append, List.replicate_succ,
            cleanStack_dotdot_dotdot]
          exact ⟨[], k + 2, by simp [List.replicate_succ], by simp⟩
      | cons top m' =>
        have htop := hm top (List.mem_cons_self top m')
        rw [List.cons_append, cleanStack_dotdot_pop r _ htop.2.2.1]
        exact ⟨m', k, rfl, fun x hx => hm x (List.mem_cons_of_mem top hx)⟩
    · rw [cleanStack_push r _ h1 h2]
      refine ⟨c :: m, k, by simp, ?_⟩
      intro x hx
      rcases List.mem_cons.mp hx with rfl | hx2
      · exact ⟨fun he => h1 (Or.inl he), fun hd => h1 (Or.inr hd),
          h2, hsl⟩
      · exact hm x hx2

theorem foldl_cleanStack_shape (r : Bool) :
    ∀ (cs : List String) (st : List String),
    (∀ c ∈ cs, '/' ∉ c.data) → StackShape st →
    StackShape (List.foldl (cleanStack r) st cs)
  | [], st, _, h => h
  | c :: cs, st, hsl, h => by
    rw [List.foldl_cons]
    exact foldl_cleanStack_shape r cs _
      (fun x hx => hsl x (List.mem_cons_of_mem c hx))
      (cleanStack_shape r (hsl c (List.mem_cons_self c cs)) h)

theorem cleanStack_rooted_no_dotdot {st : List String} {c : String}
    (h : ".." ∉ st) : ".." ∉ cleanStack true st c := by
  by_cases h1 : c = "" ∨ c = "."
  · rw [cleanStack_skip _ _ h1]; exact h
  · by_cases h2 : c = ".."
    · subst h2
      cases st with
      | nil => rw [cleanStack_dotdot_nil]; simp
      | cons top rest =>
        have htop : top ≠ ".." := fun he =>
          h (he ▸ List.mem_cons_self top rest)
        rw [cleanStack_dotdot_pop _ _ htop]
        exact fun hx => h (List.mem_cons_of_mem top hx)
    · rw [cleanStack_push _ _ h1 h2]
      intro hx
      rcases List.mem_cons.mp hx with he | hx2
      · exact h2 he.symm
      · exact h hx2

theorem foldl_cleanStack_rooted_no_dotdot :
    ∀ (cs : List String) {st : List String}, ".." ∉ st →
    ".." ∉ List.foldl (cleanStack true) st cs
  | [], _, h => h
  | c :: cs, st, h => by
    rw [List.foldl_cons]
    exact foldl_cleanStack_rooted_no_dotdot cs
      (cleanStack_rooted_no_dotdot h)

/-- When the relative cleaning of a component list yields a stack free
of `..`, the list acts on every stack (under either rootedness) by
simply pushing that cleaned stack on top. -/
theorem foldl_cleanStack_of_no_dotdot (r : Bool) (cs : List String)
    (hnd : ".." ∉ List.foldl (cleanStack false) [] cs) :
    ∀ s, List.foldl (cleanStack r) s cs =
      List.foldl (cleanStack false) [] cs ++ s := by
  induction cs using List.reverseRecOn with
  | nil => intro s; simp
  | append_singleton q c ihq =>
    intro s
    rw [List.foldl_append, List.foldl_append] at *
    simp only [List.foldl_cons, List.foldl_nil] at *
    by_cases h1 : c = "" ∨ c = "."
    · rw [cleanStack_skip r _ h1]
      rw [cleanStack_skip false _ h1] at hnd ⊢
      exact ihq hnd s
    · by_cases h2 : c = ".."
      · subst h2
        cases hq : List.foldl (cleanStack false) [] q with
        | nil =>
          rw [hq, cleanStack_dotdot_nil] at hnd
          simp at hnd
        | cons top rest =>
          by_cases htop : top = ".."
          · subst htop
            rw [hq, cleanStack_dotdot_dotdot] at hnd
            simp at hnd
          · rw [hq, cleanStack_dotdot_pop false _ htop] at hnd
            have hndq : ".." ∉ List.foldl (cleanStack false) [] q := by
              rw [hq]
              intro hx
              rcases List.mem_cons.mp hx with he | hx2
              · exact htop he.symm
              · exact hnd hx2
            rw [ihq hndq s, hq, List.cons_append,
              cleanStack_dotdot_pop r _ htop,
              cleanStack_dotdot_pop false _ htop]
      · rw [cleanStack_push r _ h1 h2]
        rw [cleanStack_push false _ h1 h2] at hnd ⊢
        have hndq : ".." ∉ List.foldl (cleanStack false) [] q :=
          fun hx => hnd (List.mem_cons_of_mem c hx)
        rw [ihq hndq s]
        simp

/-- The canonical shape of a cleaned component list: a run of leading
`..` (none when rooted) followed by canonical components. -/
def CleanShape (r : Bool) (l : List String) : Prop :=
  ∃ k m, l = List.replicate k ".." ++ m ∧ (∀ c ∈ m, NiceComp c) ∧
    (r = true → k = 0)

theorem cleanComps_is_shape (r : Bool) (s : String) :
    CleanShape r (cleanComps r (pathComps s)) := by
  have hsh := foldl_cleanStack_shape r (pathComps s) []
    (fun c hc => pathComps_no_slash hc) stackShape_nil
  obtain ⟨m, k, heq, hm⟩ := hsh
  unfold cleanComps
  rw [heq]
  refine ⟨k, m.reverse, by simp, fun c hc => hm c (List.mem_reverse.mp hc), ?_⟩
  intro hr
  subst hr
  by_contra hk
  have hdd : ".." ∈ List.foldl (cleanStack true) [] (pathComps s) := by
    rw [heq]
    refine List.mem_append_right m ?_
    exact List.mem_replicate.mpr ⟨hk, rfl⟩
  exact foldl_cleanStack_rooted_no_dotdot (pathComps s)
    (by simp) hdd

theorem foldl_cleanStack_dots :
    ∀ (k : Nat) (s : List String),
    (s = [] ∨ s.head? = some "..") →
    List.foldl (cleanStack false) s (List.replicate k "..") =
      List.replicate k ".." ++ s
  | 0, s, _ => by simp
  | k + 1, s, hs => by
    rw [List.replicate_succ, List.foldl_cons]
    have hstep : cleanStack false s ".." = ".." :: s := by
      rcases hs with rfl | hh
      · rw [cleanStack_dotdot_nil]
        simp
      · cases s with
        | nil => simp at hh
        | cons top rest =>
          have htop : top = ".." := by simpa using hh
          subst htop
          rw [cleanStack_dotdot_dotdot]
    rw [hstep, foldl_cleanStack_dots k (".." :: s) (Or.inr rfl)]
    rw [show List.replicate k ".." ++ ".." :: s =
      (List.replicate k ".." ++ [".."]) ++ s from by simp]
    rw [← List.replicate_succ', List.replicate_succ]

theorem cleanComps_shape_self (r : Bool) {l : List String}
    (h : CleanShape r l) : cleanComps r l = l := by
  obtain ⟨k, m, rfl, hm, hk⟩ := h
  unfold cleanComps
  rw [List.foldl_append]
  cases r with
  | false =>
    rw [foldl_cleanStack_dots k [] (Or.inl rfl), List.append_nil,
      foldl_cleanStack_nice false m _ hm]
    simp
  | true =>
    rw [hk rfl]
    simp only [List.replicate_zero, List.nil_append, List.foldl_nil]
    rw [foldl_cleanStack_nice true m _ hm]
    simp

theorem joinComps_data_cons (x : String) (rest : List String) :
    (joinComps (x :: rest)).data = x.data ++
      (if rest = [] then [] else '/' :: (joinComps rest).data) := by
  cases rest with
  | nil => simp [joinComps]
  | cons y ys =>
    show (x ++ "/" ++ joinComps (y :: ys)).data = _
    rw [String.data_append, String.data_append]
    simp

theorem joinComps_nice_head {x : String} (rest : List String)
    (hx0 : x ≠ "") (hx1 : x ≠ ".") (hx2 : x ≠ "..")
    (hslash : '/' ∉ x.data) :
    goIsAbs (joinComps (x :: rest)) = false ∧
    joinComps (x :: rest) ≠ "" ∧
    joinComps (x :: rest) ≠ "." ∧
    joinComps (x :: rest) ≠ ".." ∧
    strStartsWith (joinComps (x :: rest)) "../" = false := by
  have hd := joinComps_data_cons x rest
  have hxd : x.data ≠ [] := by
    intro hh
    exact hx0 (String.ext (by rw [hh]))
  obtain ⟨c, cs, hcx⟩ : ∃ c cs, x.data = c :: cs := by
    cases hxd2 : x.data with
    | nil => exact absurd hxd2 hxd
    | cons c cs => exact ⟨c, cs, rfl⟩
  have hcslash : c ≠ '/' := by
    intro hc
    exact hslash (by rw [hcx, hc]; exact List.mem_cons_self _ _)
  refine ⟨?_, ?_, ?_, ?_, ?_⟩
  · show strStartsWith _ "/" = false
    unfold strStartsWith
    rw [Bool.eq_false_iff, Ne, List.isPrefixOf_iff_prefix]
    rintro ⟨u, hu⟩
    rw [hd, hcx] at hu
    have : '/' = c := by
      have := congrArg (fun l => l.head?) hu
      simpa using this
    exact hcslash this.symm
  · intro heq
    have hdd := congrArg String.data heq
    rw [hd, hcx] at hdd
    simp at hdd
  · intro heq
    have hdd := congrArg String.data heq
    rw [hd, hcx] at hdd
    by_cases hr : rest = []
    · rw [if_pos hr, List.append_nil] at hdd
      exact hx1 (String.ext (by rw [hcx, hdd]))
    · rw [if_neg hr] at hdd
      have hlen := congrArg List.length hdd
      simp at hlen
  · intro heq
    have hdd := congrArg String.data heq
    rw [hd, hcx] at hdd
    by_cases hr : rest = []
    · rw [if_pos hr, List.append_nil] at hdd
      exact hx2 (String.ext (by rw [hcx, hdd]))
    · rw [if_neg hr] at hdd
      have hdd2 : (".." : String).data = ['.', '.'] := rfl
      rw [hdd2] at hdd
      cases cs with
      | nil =>
        simp only [List.cons_append, List.nil_append,
          List.cons.injEq] at hdd
        exact absurd hdd.2.1 (by decide)
      | cons c2 cs2 =>
        simp only [List.cons_append, List.cons.injEq] at hdd
        exact absurd hdd.2.2 (by simp)
  · unfold strStartsWith
    rw [Bool.eq_false_iff, Ne, List.isPrefixOf_iff_prefix]
    rintro ⟨u, hu⟩
    rw [hd, hcx] at hu
    have hdd : ("../" : String).data = ['.', '.', '/'] := rfl
    rw [hdd] at hu
    cases cs with
    | nil =>
      simp only [List.cons_append, List.nil_append,
        List.cons.injEq] at hu
      obtain ⟨hc1, hrest⟩ := hu
      subst hc1
      by_cases hr : rest = []
      · exact hx1 (String.ext (by rw [hcx]))
      · rw [if_neg hr] at hrest
        simp only [List.cons.injEq] at hrest
        exact absurd hrest.1 (by decide)
    | cons c2 cs2 =>
      simp only [List.cons_append, List.cons.injEq] at hu
      obtain ⟨hc1, hc2, hrest⟩ := hu
      subst hc1
      cases cs2 with
      | nil =>
        subst hc2
        exact hx2 (String.ext (by rw [hcx]))
      | cons c3 cs3 =>
        simp only [List.cons_append, List.cons.injEq] at hrest
        have hc3 : c3 = '/' := hrest.1.symm
        refine hslash ?_
        rw [hcx, ← hc3]
        exact List.mem_cons_of_mem _ (List.mem_cons_of_mem _
          (List.mem_cons_self _ _))

theorem joinComps_head_basic {x : String} (rest : List String)
    (hx0 : x ≠ "") (hx1 : x ≠ ".") (hslash : '/' ∉ x.data) :
    goIsAbs (joinComps (x :: rest)) = false ∧
    joinComps (x :: rest) ≠ "" ∧
    joinComps (x :: rest) ≠ "." := by
  have hd := joinComps_data_cons x rest
  have hxd : x.data ≠ [] := by
    intro hh
    exact hx0 (String.ext (by rw [hh]))
  obtain ⟨c, cs, hcx⟩ : ∃ c cs, x.data = c :: cs := by
    cases hxd2 : x.data with
    | nil => exact absurd hxd2 hxd
    | cons c cs => exact ⟨c, cs, rfl⟩
  have hcslash : c ≠ '/' := by
    intro hc
    exact hslash (by rw [hcx, hc]; exact List.mem_cons_self _ _)
  refine ⟨?_, ?_, ?_⟩
  · show strStartsWith _ "/" = false
    unfold strStartsWith
    rw [Bool.eq_false_iff, Ne, List.isPrefixOf_iff_prefix]
    rintro ⟨u, hu⟩
    rw [hd, hcx] at hu
    have hc2 : '/' = c := by
      have := congrArg (fun l => l.head?) hu
      simpa using this
    exact hcslash hc2.symm
  · intro heq
    have hdd := congrArg String.data heq
    rw [hd, hcx] at hdd
    simp at hdd
  · intro heq
    have hdd := congrArg String.data heq
    rw [hd, hcx] at hdd
    by_cases hr : rest = []
    · rw [if_pos hr, List.append_nil] at hdd
      exact hx1 (String.ext (by rw [hcx, hdd]))
    · rw [if_neg hr] at hdd
      have hdd2 : ("." : String).data = ['.'] := rfl
      rw [hdd2] at hdd
      cases cs with
      | nil =>
        simp only [List.cons_append, List.nil_append,
          List.cons.injEq] at hdd
        exact absurd hdd.2 (by simp)
      | cons c2 cs2 =>
        simp only [List.cons_append, List.cons.injEq] at hdd
        exact absurd hdd.2 (by simp)

/-- The head of a non-empty clean-shaped list is `..` or canonical;
either way the rendered relative path is non-empty, not `.` and not
absolute. -/
theorem joinComps_shape_basic {l : List String}
    (h : CleanShape false l) (hne : l ≠ []) :
    goIsAbs (joinComps l) = false ∧
    joinComps l ≠ "" ∧
    joinComps l ≠ "." := by
  obtain ⟨k, m, rfl, hm, -⟩ := h
  cases k with
  | zero =>
    simp only [List.replicate_zero, List.nil_append] at hne ⊢
    cases m with
    | nil => exact absurd rfl hne
    | cons x rest =>
      have hx := hm x (List.mem_cons_self x rest)
      exact joinComps_head_basic rest hx.1 hx.2.1 hx.2.2.2
  | succ k =>
    rw [List.replicate_succ, List.cons_append]
    exact joinComps_head_basic _ (by decide) (by decide) (by decide)

theorem pathComps_empty : pathComps "" = [""] := rfl

theorem joinComps_dotdot_head (rest : List String) :
    joinComps (".." :: rest) = ".." ∨
    strStartsWith (joinComps (".." :: rest)) "../" = true := by
  cases rest with
  | nil => exact Or.inl rfl
  | cons y ys =>
    right
    unfold strStartsWith
    have hd := joinComps_data_cons ".." (y :: ys)
    rw [List.isPrefixOf_iff_prefix]
    refine ⟨(joinComps (y :: ys)).data, ?_⟩
    rw [hd, if_neg (by simp)]
    rfl

theorem validated_comps {p : String} (h : ValidateRelPath p = none) :
    goIsAbs p = false ∧ p ≠ "" ∧
    cleanComps false (pathComps p) ≠ [] ∧
    (∀ c ∈ cleanComps false (pathComps p), NiceComp c) ∧
    pathClean p = joinComps (cleanComps false (pathComps p)) := by
  rw [validateRelPath_none_iff] at h
  obtain ⟨h1, h2, h3, h4, h5, h6⟩ := h
  have habs : goIsAbs p = false := h3
  have hclean : pathClean p =
      renderPath false (cleanComps false (pathComps p)) := by
    unfold pathClean
    rw [if_neg h1, habs]
  have hshape := cleanComps_is_shape false p
  obtain ⟨k, m, hkm, hm, -⟩ := hshape
  have hne : cleanComps false (pathComps p) ≠ [] := by
    intro hh
    apply h4
    rw [hclean, hh]
    rfl
  have hk : k = 0 := by
    by_contra hk0
    obtain ⟨k', rfl⟩ : ∃ k', k = k' + 1 :=
      ⟨k - 1, (Nat.succ_pred_eq_of_pos (Nat.pos_of_ne_zero hk0)).symm⟩
    have hhead : cleanComps false (pathComps p) =
        ".." :: (List.replicate k' ".." ++ m) := by
      rw [hkm, List.replicate_succ, List.cons_append]
    have hrender : pathClean p =
        joinComps (".." :: (List.replicate k' ".." ++ m)) := by
      rw [hclean, hhead]
      unfold renderPath
      rw [if_neg (by simp), if_neg (by simp)]
    rcases joinComps_dotdot_head (List.replicate k' ".." ++ m) with
      hcase | hcase
    · exact h5 (by rw [hrender, hcase])
    · rw [hrender, hcase] at h6
      cases h6
  subst hk
  rw [List.replicate_zero, List.nil_append] at hkm
  refine ⟨habs, h1, hne, ?_, ?_⟩
  · rw [hkm]; exact hm
  · rw [hclean]
    unfold renderPath
    rw [if_neg (by simp), if_neg hne]

theorem shape_no_slash {l : List String} {r : Bool}
    (h : CleanShape r l) : ∀ c ∈ l, '/' ∉ c.data := by
  obtain ⟨k, m, rfl, hm, -⟩ := h
  intro c hc
  rcases List.mem_append.mp hc with hc1 | hc2
  · have : c = ".." := List.eq_of_mem_replicate hc1
    subst this
    decide
  · exact (hm c hc2).2.2.2

theorem pathComps_render_false {l : List String}
    (hsl : ∀ c ∈ l, '/' ∉ c.data) (hne : l ≠ []) :
    pathComps (renderPath false l) = l := by
  unfold renderPath
  rw [if_neg (by simp), if_neg hne]
  exact pathComps_joinComps hne hsl

theorem pathComps_render_true {l : List String}
    (hsl : ∀ c ∈ l, '/' ∉ c.data) (hne : l ≠ []) :
    pathComps (renderPath true l) = "" :: l := by
  unfold renderPath
  rw [if_pos rfl, pathComps_slash_cons,
    pathComps_joinComps hne hsl]

theorem goIsAbs_slash_append (s : String) :
    goIsAbs ("/" ++ s) = true := by
  unfold goIsAbs strStartsWith
  have hd : ("/" ++ s).data = '/' :: s.data := by
    rw [String.data_append]; rfl
  rw [hd]
  simp [List.isPrefixOf]

theorem renderPath_true_ne_empty (l : List String) :
    renderPath true l ≠ "" := by
  unfold renderPath
  rw [if_pos rfl]
  intro hh
  have := congrArg String.data hh
  rw [String.data_append] at this
  simp at this

theorem cleanComps_cons_empty (r : Bool) (l : List String) :
    cleanComps r ("" :: l) = cleanComps r l := by
  unfold cleanComps
  rw [List.foldl_cons, cleanStack_skip r [] (Or.inl rfl)]

theorem pathClean_render {r : Bool} {l : List String}
    (h : CleanShape r l) :
    pathClean (renderPath r l) = renderPath r l := by
  cases r with
  | true =>
    unfold pathClean
    rw [if_neg (renderPath_true_ne_empty l)]
    have habs : goIsAbs (renderPath true l) = true := by
      unfold renderPath
      rw [if_pos rfl]
      exact goIsAbs_slash_append _
    rw [habs]
    cases hl : l with
    | nil =>
      subst hl
      have hcomps : pathComps (renderPath true []) = ["", ""] := by
        unfold renderPath
        rw [if_pos rfl]
        show pathComps ("/" ++ "") = _
        rw [pathComps_slash_cons, pathComps_empty]
      rw [hcomps]
      have hcl : cleanComps true ["", ""] = [] := by decide
      rw [hcl]
    | cons x xs =>
      rw [← hl]
      rw [pathComps_render_true (shape_no_slash h) (by rw [hl]; simp)]
      rw [cleanComps_cons_empty, cleanComps_shape_self true h]
  | false =>
    cases hl : l with
    | nil =>
      subst hl
      show pathClean (renderPath false []) = renderPath false []
      have hdot : renderPath false [] = "." := by
        unfold renderPath
        rw [if_neg (by simp), if_pos rfl]
      rw [hdot]
      decide
    | cons x xs =>
      rw [← hl]
      have hne : l ≠ [] := by rw [hl]; simp
      have hbasic := joinComps_shape_basic h hne
      have hrender : renderPath false l = joinComps l := by
        unfold renderPath
        rw [if_neg (by simp), if_neg hne]
      rw [hrender]
      unfold pathClean
      rw [if_neg hbasic.2.1, hbasic.1]
      rw [pathComps_joinComps hne (shape_no_slash h)]
      rw [cleanComps_shape_self false h]
      rw [← hrender]

theorem renderPath_true_ne_dot (l : List String) :
    renderPath true l ≠ "." := by
  unfold renderPath
  rw [if_pos rfl]
  intro hh
  have hd := congrArg String.data hh
  rw [String.data_append] at hd
  have h1 : ("/" : String).data = ['/'] := rfl
  have h2 : ("." : String).data = ['.'] := rfl
  rw [h1, h2] at hd
  simp only [List.cons_append, List.nil_append, List.cons.injEq] at hd
  exact absurd hd.1 (by decide)

theorem dropCommon_nil_left (ts : List String) :
    dropCommon [] ts = ([], ts) := rfl

theorem dropCommon_self_append : ∀ (x y : List String),
    dropCommon x (x ++ y) = ([], y)
  | [], y => rfl
  | a :: as, y => by
    show dropCommon (a :: as) (a :: (as ++ y)) = ([], y)
    unfold dropCommon
    rw [if_pos rfl]
    exact dropCommon_self_append as y

theorem strAppend_ne_empty_left {a : String} (b : String)
    (ha : a ≠ "") : a ++ b ≠ "" := by
  intro hh
  apply ha
  have hd := congrArg String.data hh
  rw [String.data_append] at hd
  have h0 : ("" : String).data = [] := rfl
  rw [h0] at hd
  exact String.ext (by rw [(List.append_eq_nil.mp hd).1])

theorem goIsAbs_append_of_ne {a : String} (b : String) (ha : a ≠ "") :
    goIsAbs (a ++ b) = goIsAbs a := by
  unfold goIsAbs strStartsWith
  have had : a.data ≠ [] := fun hh => ha (String.ext (by rw [hh]))
  obtain ⟨c, cs, hcx⟩ : ∃ c cs, a.data = c :: cs := by
    cases hxd2 : a.data with
    | nil => exact absurd hxd2 had
    | cons c cs => exact ⟨c, cs, rfl⟩
  have h1 : ("/" : String).data = ['/'] := rfl
  rw [String.data_append, hcx, h1]
  show (['/'].isPrefixOf (c :: (cs ++ b.data))) =
    ['/'].isPrefixOf (c :: cs)
  simp [List.isPrefixOf]

theorem cleanComps_append_of_validated (r : Bool) (ca : List String)
    {p : String} (hp : ValidateRelPath p = none) :
    cleanComps r (ca ++ pathComps p) =
      cleanComps r ca ++ cleanComps false (pathComps p) := by
  obtain ⟨-, -, -, hnice, -⟩ := validated_comps hp
  have hnd : ".." ∉ List.foldl (cleanStack false) [] (pathComps p) := by
    intro hx
    have hmem : ".." ∈ cleanComps false (pathComps p) := by
      unfold cleanComps
      exact List.mem_reverse.mpr hx
    exact (hnice ".." hmem).2.2.1 rfl
  unfold cleanComps
  rw [List.foldl_append,
    foldl_cleanStack_of_no_dotdot r (pathComps p) hnd,
    List.reverse_append]

theorem pathClean_append {dir p : String} (hdir : dir ≠ "")
    (hp : ValidateRelPath p = none) :
    pathClean (dir ++ "/" ++ p) =
      renderPath (goIsAbs dir)
        (cleanComps (goIsAbs dir) (pathComps dir) ++
          cleanComps false (pathComps p)) := by
  have hne1 : dir ++ "/" ≠ "" := strAppend_ne_empty_left "/" hdir
  have hne2 : dir ++ "/" ++ p ≠ "" := strAppend_ne_empty_left p hne1
  have habs : goIsAbs (dir ++ "/" ++ p) = goIsAbs dir := by
    rw [goIsAbs_append_of_ne p hne1, goIsAbs_append_of_ne "/" hdir]
  unfold pathClean
  rw [if_neg hne2, habs, pathComps_append_slash,
    cleanComps_append_of_validated (goIsAbs dir) (pathComps dir) hp]

theorem cleanShape_of_nice {r : Bool} {m : List String}
    (hm : ∀ c ∈ m, NiceComp c) : CleanShape r m :=
  ⟨0, m, by simp, hm, fun _ => rfl⟩

theorem cleanShape_append_nice {r : Bool} {a b : List String}
    (ha : CleanShape r a) (hb : ∀ c ∈ b, NiceComp c) :
    CleanShape r (a ++ b) := by
  obtain ⟨k, m, rfl, hm, hk⟩ := ha
  refine ⟨k, m ++ b, by simp, ?_, hk⟩
  intro c hc
  rcases List.mem_append.mp hc with h1 | h2
  · exact hm c h1
  · exact hb c h2

theorem goJoin_validated (dir : String) {p : String}
    (h : ValidateRelPath p = none) :
    goJoin dir p = if dir = "" then
      renderPath false (cleanComps false (pathComps p))
    else renderPath (goIsAbs dir)
      (cleanComps (goIsAbs dir) (pathComps dir) ++
        cleanComps false (pathComps p)) := by
  obtain ⟨habs, hpne, hne, hnice, hrender⟩ := validated_comps h
  unfold goJoin
  rw [if_neg (fun hc => hpne hc.2)]
  by_cases hdir : dir = ""
  · rw [if_pos hdir, if_pos hdir, hrender]
    unfold renderPath
    rw [if_neg (by simp), if_neg hne]
  · rw [if_neg hdir, if_neg hdir, if_neg hpne]
    exact pathClean_append hdir h

theorem pathClean_goJoin (dir : String) {p : String}
    (h : ValidateRelPath p = none) :
    pathClean (goJoin dir p) = goJoin dir p := by
  obtain ⟨habs, hpne, hne, hnice, hrender⟩ := validated_comps h
  rw [goJoin_validated dir h]
  by_cases hdir : dir = ""
  · rw [if_pos hdir]
    exact pathClean_render (cleanShape_of_nice hnice)
  · rw [if_neg hdir]
    exact pathClean_render
      (cleanShape_append_nice (cleanComps_is_shape _ dir) hnice)

theorem goRel_goJoin (dir : String) {p : String}
    (h : ValidateRelPath p = none) :
    goRel dir (goJoin dir p) = some "." ∨
    goRel dir (goJoin dir p) =
      some (joinComps (cleanComps false (pathComps p))) := by
  obtain ⟨habs, hpne, hne, hnice, hrender⟩ := validated_comps h
  by_cases heq : pathClean dir = pathClean (goJoin dir p)
  · left
    unfold goRel
    rw [if_pos heq]
  right
  obtain ⟨x, xs, hxm⟩ :
      ∃ x xs, cleanComps false (pathComps p) = x :: xs := by
    cases hmm : cleanComps false (pathComps p) with
    | nil => exact absurd hmm hne
    | cons x xs => exact ⟨x, xs, rfl⟩
  have hx := hnice x (hxm ▸ List.mem_cons_self x xs)
  have hmsl : ∀ c ∈ cleanComps false (pathComps p), '/' ∉ c.data :=
    fun c hc => (hnice c hc).2.2.2
  have hbasic := joinComps_head_basic xs hx.1 hx.2.1 hx.2.2.2
  rw [← hxm] at hbasic
  have hmrender :
      renderPath false (cleanComps false (pathComps p)) =
        joinComps (cleanComps false (pathComps p)) := by
    unfold renderPath
    rw [if_neg (by simp), if_neg hne]
  have hmcomps :
      pathComps (joinComps (cleanComps false (pathComps p))) =
        cleanComps false (pathComps p) :=
    pathComps_joinComps hne hmsl
  unfold goRel
  rw [if_neg heq, pathClean_goJoin dir h, goJoin_validated dir h]
  dsimp only
  by_cases hdir : dir = ""
  · rw [if_pos hdir, hdir]
    have hbase : pathClean "" = "." := rfl
    rw [hbase, hmrender]
    rw [if_neg (by rw [hbasic.1]; simp [goIsAbs, strStartsWith])]
    rw [if_pos rfl, hmcomps, dropCommon_nil_left]
    rw [if_pos (Or.inl rfl)]
  · rw [if_neg hdir]
    have hbase : pathClean dir = renderPath (goIsAbs dir)
        (cleanComps (goIsAbs dir) (pathComps dir)) := by
      unfold pathClean
      rw [if_neg hdir]
    rw [hbase]
    cases hr : goIsAbs dir with
    | false =>
      have hbcshape := cleanComps_is_shape false dir
      have hbcsl := shape_no_slash hbcshape
      by_cases hbc : cleanComps false (pathComps dir) = []
      · rw [hbc, List.nil_append]
        have hdot : renderPath false ([] : List String) = "." := by
          unfold renderPath
          rw [if_neg (by simp), if_pos rfl]
        rw [hdot, hmrender]
        rw [if_neg (by rw [hbasic.1]; simp [goIsAbs, strStartsWith])]
        rw [if_pos rfl, hmcomps, dropCommon_nil_left]
        rw [if_pos (Or.inl rfl)]
      · have hbcb := joinComps_shape_basic hbcshape hbc
        have hbm : cleanComps false (pathComps dir) ++
            cleanComps false (pathComps p) ≠ [] := by
          simp [hbc]
        have hbmshape : CleanShape false
            (cleanComps false (pathComps dir) ++
              cleanComps false (pathComps p)) :=
          cleanShape_append_nice hbcshape hnice
        have hbmb := joinComps_shape_basic hbmshape hbm
        have hrb : renderPath false
            (cleanComps false (pathComps dir)) =
            joinComps (cleanComps false (pathComps dir)) := by
          unfold renderPath
          rw [if_neg (by simp), if_neg hbc]
        have hrt : renderPath false
            (cleanComps false (pathComps dir) ++
              cleanComps false (pathComps p)) =
            joinComps (cleanComps false (pathComps dir) ++
              cleanComps false (pathComps p)) := by
          unfold renderPath
          rw [if_neg (by simp), if_neg hbm]
        rw [hrb, hrt]
        rw [if_neg (by rw [hbcb.1, hbmb.1]; simp)]
        rw [if_neg hbcb.2.2]
        rw [pathComps_joinComps hbc hbcsl,
          pathComps_joinComps hbm (shape_no_slash hbmshape),
          dropCommon_self_append]
        rw [if_pos (Or.inl rfl)]
    | true =>
      have hbcshape := cleanComps_is_shape true dir
      have hbcsl := shape_no_slash hbcshape
      have habs1 : goIsAbs (renderPath true
          (cleanComps true (pathComps dir))) = true := by
        unfold renderPath
        rw [if_pos rfl]
        exact goIsAbs_slash_append _
      have habs2 : goIsAbs (renderPath true
          (cleanComps true (pathComps dir) ++
            cleanComps false (pathComps p))) = true := by
        unfold renderPath
        rw [if_pos rfl]
        exact goIsAbs_slash_append _
      rw [if_neg (by rw [habs1, habs2]; simp)]
      rw [if_neg (renderPath_true_ne_dot _)]
      have hbmsl : ∀ c ∈ cleanComps true (pathComps dir) ++
          cleanComps false (pathComps p), '/' ∉ c.data := by
        intro c hc
        rcases List.mem_append.mp hc with h1 | h2
        · exact hbcsl c h1
        · exact hmsl c h2
      have hbm : cleanComps true (pathComps dir) ++
          cleanComps false (pathComps p) ≠ [] := by
        intro hc
        exact hne (List.append_eq_nil.mp hc).2
      rw [pathComps_render_true hbmsl hbm]
      by_cases hbc : cleanComps true (pathComps dir) = []
      · rw [hbc, List.nil_append]
        have hcomps0 : pathComps (renderPath true
            ([] : List String)) = ["", ""] := by
          unfold renderPath
          rw [if_pos rfl]
          show pathComps ("/" ++ "") = _
          rw [pathComps_slash_cons, pathComps_empty]
        rw [hcomps0, hxm]
        have hdrop : dropCommon ["", ""] ("" :: x :: xs) =
            ([""], x :: xs) := by
          unfold dropCommon
          rw [if_pos rfl]
          unfold dropCommon
          rw [if_neg (fun hc => hx.1 hc.symm)]
        rw [hdrop]
        rw [if_pos (Or.inr rfl), ← hxm]
      · rw [pathComps_render_true hbcsl hbc]
        have hdrop : dropCommon
            ("" :: cleanComps true (pathComps dir))
            ("" :: (cleanComps true (pathComps dir) ++
              cleanComps false (pathComps p))) =
            ([], cleanComps false (pathComps p)) := by
          unfold dropCommon
          rw [if_pos rfl]
          exact dropCommon_self_append _ _
        rw [hdrop]
        rw [if_pos (Or.inl rfl)]

/-- The containment test of `IsWithinDir` always accepts the join of a
directory with a path accepted by `ValidateRelPath`. -/
theorem isWithinDir_goJoin (dir : String) {p : String}
    (h : ValidateRelPath p = none) :
    IsWithinDir dir (goJoin dir p) = true := by
  obtain ⟨habs, hpne, hne, hnice, hrender⟩ := validated_comps h
  obtain ⟨x, xs, hxm⟩ :
      ∃ x xs, cleanComps false (pathComps p) = x :: xs := by
    cases hmm : cleanComps false (pathComps p) with
    | nil => exact absurd hmm hne
    | cons x xs => exact ⟨x, xs, rfl⟩
  have hx := hnice x (hxm ▸ List.mem_cons_self x xs)
  have hsafe := joinComps_nice_head xs hx.1 hx.2.1 hx.2.2.1 hx.2.2.2
  rw [← hxm] at hsafe
  rcases goRel_goJoin dir h with hg | hg
  · unfold IsWithinDir
    rw [hg]
    decide
  · unfold IsWithinDir
    rw [hg]
    show (!(decide _) && !(strStartsWith _ "../") && !(goIsAbs _)) = true
    rw [decide_eq_false hsafe.2.2.2.1, hsafe.2.2.2.2, hsafe.1]
    rfl

/-! ## `pkg/pack/pack.go` — PackTar -/

/-- Tar header type flags used by the codec (`archive/tar`). -/
inductive TarType
  | dir
  | reg
  | other
deriving DecidableEq, Repr

/-- One tar entry (header and body) as written through the
`tar.Writer`; the byte stream is abstracted to the entry list (the
gzip wrapping selected by `compress` is a faithful codec and adds or
removes nothing at this level). -/
structure TarEntry where
  name : String
  typeflag : TarType
  mode : Nat
  body : List Nat
deriving DecidableEq, Repr

/-- A regular file of the pack-side file system: its POSIX mode and
content bytes. -/
structure GoFile where
  mode : Nat
  data : List Nat
deriving DecidableEq, Repr

/-- The pack-side view of a file system: canonical (joined) path
string to regular file; `none` means `os.Open` fails there. -/
abbrev PackFS := String → Option GoFile

/-- The progressive prefixes assembled by the string builder of
`collectDirs`: after component `i` the builder holds the first `i+1`
components joined with `/`. -/
def progressiveJoins (parts : List String) : List String :=
  (List.range parts.length).map (fun i => joinComps (parts.take (i + 1)))

/-- Embeds `collectDirs` (`pkg/pack/pack.go`): for each path, the
cleaned parent directory (skipped when `.`), split into components,
inserted shallowest-first, each directory at most once (the `seen`
set).  `filepath.ToSlash` is the identity on Linux. -/
def collectDirs (filePaths : List String) : List String :=
  filePaths.foldl (fun acc p =>
    let dir := goDir p
    if dir = "." then acc
    else (progressiveJoins (pathComps dir)).foldl
      (fun acc2 d => if d ∈ acc2 then acc2 else acc2 ++ [d]) acc) []

/-- Embeds `addFileToTar`: open and stat the file at `absPath`, then a
regular-file header (name = the relative path, mode = the low nine
permission bits, size = length) followed by the body bytes.  `none`
models an open failure. -/
def addFileToTar (fs : PackFS) (absPath relPath : String) :
    Option TarEntry :=
  match fs absPath with
  | none => none
  | some f => some ⟨relPath, TarType.reg, f.mode % 512, f.data⟩

/-- Result of a pack run: the entries written to the stream so far,
the returned count, and the returned error (`none` = nil). -/
structure PackResult where
  written : List TarEntry
  count : Nat
  err : Option String
deriving DecidableEq, Repr

/-- The per-file loop of `PackTar`: validate, join and containment
check, then append header+body; the first failure aborts with what
was already written. -/
def packFiles (fs : PackFS) (dir : String) :
    List String → List TarEntry → Nat → PackResult
  | [], written, count => ⟨written, count, none⟩
  | rel :: rest, written, count =>
    match ValidateRelPath rel with
    | some msg =>
      ⟨written, 0, some ("invalid path " ++ rel ++ ": " ++ msg)⟩
    | none =>
      if IsWithinDir dir (goJoin dir rel) = false then
        ⟨written, 0, some ("path escapes dir: " ++ rel)⟩
      else
        match addFileToTar fs (goJoin dir rel) rel with
        | none => ⟨written, 0, some ("open " ++ rel ++ ": error")⟩
        | some e => packFiles fs dir rest (written ++ [e]) (count + 1)

/-- Embeds `PackTar` (`pkg/pack/pack.go`): first a zero-mtime 0755
directory header for every collected ancestor directory, then each
listed file in order. -/
def PackTar (dir : String) (filePaths : List String) (fs : PackFS)
    (compress : Bool) : PackResult :=
  let dirs := collectDirs filePaths
  let dirEntries := dirs.map (fun d =>
    TarEntry.mk (d ++ "/") TarType.dir 493 [])
  packFiles fs dir filePaths dirEntries 0

/-- Pack-side file system used by concrete pack examples. -/
def examplePackFS : PackFS := fun s =>
  if s = "root/a/c" then some ⟨420, [7, 8]⟩
  else if s = "root/d" then some ⟨493, [1]⟩
  else none

example : (PackTar "root" ["a/c", "d"] examplePackFS true).err = none := by
  decide
example : (PackTar "root" ["a/c", "d"] examplePackFS true).written =
    [⟨"a/", TarType.dir, 493, []⟩,
     ⟨"a/c", TarType.reg, 420, [7, 8]⟩,
     ⟨"d", TarType.reg, 493, [1]⟩] := by decide
example : (PackTar "root" ["../x"] examplePackFS true).err ≠ none := by
  decide
example : (PackTar "root" [] examplePackFS true).count = 0 := by decide

theorem packFiles_ok_validated {fs : PackFS} {dir : String} :
    ∀ {ps : List String} {written : List TarEntry} {count : Nat},
    (packFiles fs dir ps written count).err = none →
    ∀ p ∈ ps, ValidateRelPath p = none
  | [], _, _, _, p, hp => absurd hp (by simp)
  | rel :: rest, written, count, hok, p, hp => by
    rw [packFiles] at hok
    cases hv : ValidateRelPath rel with
    | some msg => rw [hv] at hok; cases hok
    | none =>
      rw [hv] at hok
      by_cases hw : IsWithinDir dir (goJoin dir rel) = false
      · rw [if_pos hw] at hok; cases hok
      · rw [if_neg hw] at hok
        cases ha : addFileToTar fs (goJoin dir rel) rel with
        | none => rw [ha] at hok; cases hok
        | some e =>
          rw [ha] at hok
          rcases List.mem_cons.mp hp with rfl | hp2
          · exact hv
          · exact packFiles_ok_validated hok p hp2

theorem packFiles_written_extends {fs : PackFS} {dir : String} :
    ∀ {ps : List String} {written : List TarEntry} {count : Nat},
    ∃ tail, (packFiles fs dir ps written count).written =
      written ++ tail
  | [], written, count => ⟨[], by simp [packFiles]⟩
  | rel :: rest, written, count => by
    rw [packFiles]
    cases hv : ValidateRelPath rel with
    | some msg => exact ⟨[], by simp⟩
    | none =>
      by_cases hw : IsWithinDir dir (goJoin dir rel) = false
      · rw [if_pos hw]; exact ⟨[], by simp⟩
      · rw [if_neg hw]
        cases ha : addFileToTar fs (goJoin dir rel) rel with
        | none => exact ⟨[], by simp⟩
        | some e =>
          obtain ⟨tail, htail⟩ :=
            @packFiles_written_extends fs dir rest (written ++ [e])
              (count + 1)
          exact ⟨e :: tail, by rw [htail]; simp⟩

theorem packFiles_written_mem {fs : PackFS} {dir : String} :
    ∀ {ps : List String} {written : List TarEntry} {count : Nat}
    {e : TarEntry},
    e ∈ (packFiles fs dir ps written count).written →
    e ∈ written ∨ (e.typeflag = TarType.reg ∧
      ∃ p ∈ ps, ValidateRelPath p = none ∧ e.name = p)
  | [], written, count, e, h => Or.inl (by simpa [packFiles] using h)
  | rel :: rest, written, count, e, h => by
    rw [packFiles] at h
    cases hv : ValidateRelPath rel with
    | some msg =>
      rw [hv] at h
      exact Or.inl h
    | none =>
      rw [hv] at h
      by_cases hw : IsWithinDir dir (goJoin dir rel) = false
      · rw [if_pos hw] at h
        exact Or.inl h
      · rw [if_neg hw] at h
        cases ha : addFileToTar fs (goJoin dir rel) rel with
        | none =>
          rw [ha] at h
          exact Or.inl h
        | some e2 =>
          rw [ha] at h
          rcases packFiles_written_mem h with h2 | h2
          · rcases List.mem_append.mp h2 with h3 | h3
            · exact Or.inl h3
            · right
              have he : e = e2 := by simpa using h3
              subst he
              have hname : e.name = rel ∧ e.typeflag = TarType.reg := by
                unfold addFileToTar at ha
                cases hf : fs (goJoin dir rel) with
                | none => rw [hf] at ha; cases ha
                | some f =>
                  rw [hf] at ha
                  cases ha
                  exact ⟨rfl, rfl⟩
              exact ⟨hname.2, rel, List.mem_cons_self rel rest,
                hv, hname.1⟩
          · exact Or.inr ⟨h2.1, h2.2.choose,
              List.mem_cons_of_mem rel h2.2.choose_spec.1,
              h2.2.choose_spec.2⟩

/-- Dropping the last raw component of a path whose full cleaning
holds no `..` leaves a stack that also holds no `..`. -/
theorem dir_stack_no_dotdot {pC : List String} {lastc : String}
    (hfin : ".." ∉ List.foldl (cleanStack false) [] (pC ++ [lastc])) :
    ".." ∉ List.foldl (cleanStack false) [] pC := by
  rw [List.foldl_append, List.foldl_cons, List.foldl_nil] at hfin
  by_cases h1 : lastc = "" ∨ lastc = "."
  · rwa [cleanStack_skip _ _ h1] at hfin
  · by_cases h2 : lastc = ".."
    · subst h2
      cases hS : List.foldl (cleanStack false) [] pC with
      | nil => simp
      | cons top rest =>
        by_cases htop : top = ".."
        · subst htop
          rw [hS, cleanStack_dotdot_dotdot] at hfin
          exact absurd (List.mem_cons_self _ _) hfin
        · rw [hS, cleanStack_dotdot_pop _ _ htop] at hfin
          intro hmem
          rcases List.mem_cons.mp hmem with he | hm
          · exact htop he.symm
          · exact hfin hm
    · rw [cleanStack_push _ _ h1 h2] at hfin
      exact fun hm => hfin (List.mem_cons_of_mem _ hm)

/-- For a validated path, `filepath.Dir` is `.` or a canonical
slash-joined list of components (no `..`, no dots, no empties). -/
theorem goDir_validated {p : String} (h : ValidateRelPath p = none) :
    goDir p = "." ∨
    (∃ ms, ms ≠ [] ∧ (∀ c ∈ ms, NiceComp c) ∧
      goDir p = joinComps ms ∧ pathComps (goDir p) = ms) := by
  obtain ⟨habs, hpne, hne, hnice, hrender⟩ := validated_comps h
  unfold goDir
  dsimp only
  by_cases hlen : (pathComps p).length ≤ 1
  · rw [if_pos hlen]
    exact Or.inl rfl
  · rw [if_neg hlen, habs]
    have hpc_ne : pathComps p ≠ [] := pathComps_ne_nil p
    have hdl : (pathComps p).dropLast ++
        [(pathComps p).getLast hpc_ne] = pathComps p :=
      List.dropLast_append_getLast hpc_ne
    have hnd_full : ".." ∉ List.foldl (cleanStack false) []
        (pathComps p) := by
      intro hx
      have hmem : ".." ∈ cleanComps false (pathComps p) :=
        List.mem_reverse.mpr hx
      exact (hnice ".." hmem).2.2.1 rfl
    have hnd : ".." ∉ List.foldl (cleanStack false) []
        (pathComps p).dropLast :=
      dir_stack_no_dotdot (by rw [hdl]; exact hnd_full)
    have hsh := foldl_cleanStack_shape false (pathComps p).dropLast []
      (fun c hc => pathComps_no_slash
        ((List.dropLast_sublist _).subset hc)) stackShape_nil
    obtain ⟨m, k, hS, hm⟩ := hsh
    have hk : k = 0 := by
      by_contra hk0
      apply hnd
      rw [hS]
      exact List.mem_append_right m (List.mem_replicate.mpr ⟨hk0, rfl⟩)
    subst hk
    rw [List.replicate_zero, List.append_nil] at hS
    have hcc : cleanComps false (pathComps p).dropLast = m.reverse := by
      unfold cleanComps
      rw [hS]
    have hmrev : ∀ c ∈ m.reverse, NiceComp c :=
      fun c hc => hm c (List.mem_reverse.mp hc)
    cases hmr : m.reverse with
    | nil =>
      left
      rw [hcc, hmr]
      unfold renderPath
      rw [if_neg (by simp), if_pos rfl]
    | cons x xs =>
      right
      refine ⟨m.reverse, by rw [hmr]; simp, hmrev, ?_, ?_⟩
      · rw [hcc]
        unfold renderPath
        rw [if_neg (by simp), if_neg (by rw [hmr]; simp)]
      · rw [hcc]
        have hrr : renderPath false m.reverse =
            joinComps m.reverse := by
          unfold renderPath
          rw [if_neg (by simp), if_neg (by rw [hmr]; simp)]
        rw [hrr]
        exact pathComps_joinComps (by rw [hmr]; simp)
          (fun c hc => (hmrev c hc).2.2.2)

theorem dedup_fold_mem {ds acc : List String} {d : String}
    (h : d ∈ ds.foldl
      (fun acc2 x => if x ∈ acc2 then acc2 else acc2 ++ [x]) acc) :
    d ∈ acc ∨ d ∈ ds := by
  induction ds generalizing acc with
  | nil => exact Or.inl h
  | cons x ds ih =>
    rw [List.foldl_cons] at h
    rcases ih h with h2 | h2
    · by_cases hx : x ∈ acc
      · rw [if_pos hx] at h2
        exact Or.inl h2
      · rw [if_neg hx] at h2
        rcases List.mem_append.mp h2 with h3 | h3
        · exact Or.inl h3
        · have hdx : d = x := by simpa using h3
          exact Or.inr (hdx ▸ List.mem_cons_self x ds)
    · exact Or.inr (List.mem_cons_of_mem x h2)

theorem collectDirs_fold_mem {d : String} :
    ∀ (ps : List String) (acc : List String),
    d ∈ ps.foldl (fun acc p =>
      let dir := goDir p
      if dir = "." then acc
      else (progressiveJoins (pathComps dir)).foldl
        (fun acc2 x => if x ∈ acc2 then acc2 else acc2 ++ [x]) acc)
      acc →
    d ∈ acc ∨ ∃ p ∈ ps, goDir p ≠ "." ∧
      d ∈ progressiveJoins (pathComps (goDir p))
  | [], acc, h => Or.inl h
  | p :: ps, acc, h => by
    rw [List.foldl_cons] at h
    rcases collectDirs_fold_mem ps _ h with h2 | h2
    · dsimp only at h2
      by_cases hd : goDir p = "."
      · rw [if_pos hd] at h2
        exact Or.inl h2
      · rw [if_neg hd] at h2
        rcases dedup_fold_mem h2 with h3 | h3
        · exact Or.inl h3
        · exact Or.inr ⟨p, List.mem_cons_self p ps, hd, h3⟩
    · obtain ⟨q, hq, hqd, hqm⟩ := h2
      exact Or.inr ⟨q, List.mem_cons_of_mem p hq, hqd, hqm⟩

theorem collectDirs_nice {ps : List String}
    (hv : ∀ p ∈ ps, ValidateRelPath p = none) :
    ∀ d ∈ collectDirs ps, ∃ ms, ms ≠ [] ∧
      (∀ c ∈ ms, NiceComp c) ∧ d = joinComps ms := by
  intro d hd
  rcases collectDirs_fold_mem ps [] hd with h | h
  · simp at h
  obtain ⟨p, hp, hpd, hpm⟩ := h
  rcases goDir_validated (hv p hp) with hdot |
    ⟨ms, hne, hnice, hjoin, hcomps⟩
  · exact absurd hdot hpd
  · unfold progressiveJoins at hpm
    rw [hcomps] at hpm
    obtain ⟨i, hi2, heq⟩ := List.mem_map.mp hpm
    refine ⟨ms.take (i + 1), ?_,
      fun c hc => hnice c (List.take_subset _ _ hc), heq.symm⟩
    intro hh
    have hlen := congrArg List.length hh
    rw [List.length_take] at hlen
    simp only [List.length_nil] at hlen
    have hms : ms.length = 0 := by omega
    exact hne (List.length_eq_zero.mp hms)

theorem pathComps_append_trailing_slash (s : String) :
    pathComps (s ++ "/") = pathComps s ++ [""] := by
  unfold pathComps
  have hd : (s ++ "/").data = s.data ++ '/' :: [] := by
    rw [String.data_append]
  rw [hd, splitSlash_append]
  simp [splitSlash]

theorem cleanComps_append_empty (r : Bool) (l : List String) :
    cleanComps r (l ++ [""]) = cleanComps r l := by
  unfold cleanComps
  rw [List.foldl_append, List.foldl_cons, List.foldl_nil,
    cleanStack_skip r _ (Or.inl rfl)]

/-- A validated path is not absolute and its cleaned form has no `..`
component. -/
theorem validated_clean_no_dotdot {p : String}
    (h : ValidateRelPath p = none) :
    goIsAbs p = false ∧ ".." ∉ pathComps (pathClean p) := by
  obtain ⟨habs, hpne, hne, hnice, hrender⟩ := validated_comps h
  refine ⟨habs, ?_⟩
  rw [hrender,
    pathComps_joinComps hne (fun c hc => (hnice c hc).2.2.2)]
  exact fun hdd => (hnice ".." hdd).2.2.1 rfl

/-- A directory-header name `d/` over canonical components is not
absolute and its cleaned form has no `..` component. -/
theorem dirEntry_name_safe {ms : List String} (hne : ms ≠ [])
    (hnice : ∀ c ∈ ms, NiceComp c) :
    goIsAbs (joinComps ms ++ "/") = false ∧
    ".." ∉ pathComps (pathClean (joinComps ms ++ "/")) := by
  obtain ⟨x, xs, rfl⟩ : ∃ x xs, ms = x :: xs := by
    cases hmm : ms with
    | nil => exact absurd hmm hne
    | cons x xs => exact ⟨x, xs, rfl⟩
  have hx := hnice x (List.mem_cons_self x xs)
  have hbasic := joinComps_head_basic xs hx.1 hx.2.1 hx.2.2.2
  have hsl : ∀ c ∈ x :: xs, '/' ∉ c.data :=
    fun c hc => (hnice c hc).2.2.2
  have habs : goIsAbs (joinComps (x :: xs) ++ "/") = false := by
    rw [goIsAbs_append_of_ne "/" hbasic.2.1]
    exact hbasic.1
  refine ⟨habs, ?_⟩
  have hcomps : pathComps (joinComps (x :: xs) ++ "/") =
      (x :: xs) ++ [""] := by
    rw [pathComps_append_trailing_slash,
      pathComps_joinComps hne hsl]
  have hclean : pathClean (joinComps (x :: xs) ++ "/") =
      joinComps (x :: xs) := by
    unfold pathClean
    rw [if_neg (strAppend_ne_empty_left "/" hbasic.2.1), habs,
      hcomps, cleanComps_append_empty,
      cleanComps_shape_self false (cleanShape_of_nice hnice)]
    unfold renderPath
    rw [if_neg (by simp), if_neg hne]
  rw [hclean, pathComps_joinComps hne hsl]
  exact fun hdd => (hnice ".." hdd).2.2.1 rfl

/-- Pack-side file system for the C1 counterexample: one regular file
at `root/a/c`. -/
def c1FS : PackFS := fun s =>
  if s = "root/a/c" then some ⟨420, [7]⟩ else none

/-- **C1 counterexample** — `PackTar "root" ["a/b/../c"]` succeeds
(the path validates, since its cleaned form `a/c` stays inside the
root, and the file exists), yet the regular-file header carries the
raw name `a/b/../c`, which contains a `..` path component.  The
claim's "no entry whose name contains a `..` path component" is
therefore false as stated. -/
theorem packTar_dotdot_name_counterexample :
    (PackTar "root" ["a/b/../c"] c1FS true).err = none ∧
    ∃ e ∈ (PackTar "root" ["a/b/../c"] c1FS true).written,
      ".." ∈ pathComps e.name := by decide

/-- **C1 (amended)** — if `PackTar` returns successfully then no
written entry has an absolute name, and no entry's CLEANED name
contains a `..` component (the raw regular-file names may contain
`..` segments, but they clean away inside the root). -/
theorem packTar_success_names_safe (dir : String) (ps : List String)
    (fs : PackFS) (compress : Bool)
    (hok : (PackTar dir ps fs compress).err = none) :
    ∀ e ∈ (PackTar dir ps fs compress).written,
      goIsAbs e.name = false ∧
      ".." ∉ pathComps (pathClean e.name) := by
  intro e he
  unfold PackTar at hok he
  dsimp only at hok he
  have hval : ∀ p ∈ ps, ValidateRelPath p = none :=
    packFiles_ok_validated hok
  rcases packFiles_written_mem he with hdir | ⟨-, p, hp, hpv, hname⟩
  · obtain ⟨d0, hd0, hd0e⟩ := List.mem_map.mp hdir
    obtain ⟨ms, hne, hnice, rfl⟩ := collectDirs_nice hval d0 hd0
    have hsafe := dirEntry_name_safe hne hnice
    rw [← hd0e]
    exact hsafe
  · rw [hname]
    exact validated_clean_no_dotdot hpv

/-- Witness for `packTar_success_names_safe` at the concrete pack of
`a/c` and `d` from `root`. -/
theorem packTar_success_names_safe_witness :
    (PackTar "root" ["a/c", "d"] examplePackFS true).err = none ∧
    (∀ e ∈ (PackTar "root" ["a/c", "d"] examplePackFS true).written,
      goIsAbs e.name = false ∧
      ".." ∉ pathComps (pathClean e.name)) :=
  ⟨by decide, packTar_success_names_safe "root" ["a/c", "d"]
    examplePackFS true (by decide)⟩

/-- **C10** — the directory headers derived from every listed path are
always a leading segment of the written stream, before any
validation; in particular, when `PackTar` fails and the list has
parent directories, the output is already non-empty. -/
theorem packTar_dirs_written_first (dir : String) (ps : List String)
    (fs : PackFS) (compress : Bool) :
    ((collectDirs ps).map (fun d =>
        TarEntry.mk (d ++ "/") TarType.dir 493 []) <+:
      (PackTar dir ps fs compress).written) ∧
    ((PackTar dir ps fs compress).err ≠ none → collectDirs ps ≠ [] →
      (PackTar dir ps fs compress).written ≠ []) := by
  unfold PackTar
  dsimp only
  obtain ⟨tail, htail⟩ := @packFiles_written_extends fs dir ps
    ((collectDirs ps).map (fun d =>
      TarEntry.mk (d ++ "/") TarType.dir 493 [])) 0
  rw [htail]
  refine ⟨⟨tail, rfl⟩, ?_⟩
  intro _ hdirs hnil
  rcases List.append_eq_nil.mp hnil with ⟨hmap, -⟩
  exact hdirs (List.map_eq_nil_iff.mp hmap)

/-- Witness for `packTar_dirs_written_first`: packing the invalid
path `a/../../x` fails validation, yet the `..`-escaping ancestor
header was already written. -/
theorem packTar_dirs_written_first_witness :
    (PackTar "root" ["a/../../x"] c1FS true).err ≠ none ∧
    collectDirs ["a/../../x"] ≠ [] ∧
    (PackTar "root" ["a/../../x"] c1FS true).written ≠ [] :=
  ⟨by decide, by decide,
    (packTar_dirs_written_first "root" ["a/../../x"] c1FS true).2
      (by decide) (by decide)⟩

/-! ## Unpack (`UnpackTar`) -/

/-- A node of the extract-side file system. -/
inductive Node
  | dir (mode : Nat)
  | file (mode : Nat) (data : List Nat)
deriving DecidableEq, Repr

/-- The extract-side file system: canonical path string to node
(`none` = nothing at that path). -/
abbrev Store := String → Option Node

/-- Point update of a store. -/
def storeSet (st : Store) (k : String) (n : Node) : Store :=
  fun s => if s = k then some n else st s

/-- The canonical ancestor chain of a path (shallowest first),
resolved on its cleaned form: the directories `os.MkdirAll` walks. -/
def ancestorChain (p : String) : List String :=
  let q := pathClean p
  if q = "." then []
  else if goIsAbs q then
    (progressiveJoins ((pathComps q).drop 1)).map (fun s => "/" ++ s)
  else progressiveJoins (pathComps q)

/-- Create every missing directory of a chain with `perm`; an
existing directory is kept, an existing file is an error. -/
def mkdirChain (perm : Nat) : Store → List String → Option Store
  | st, [] => some st
  | st, a :: rest =>
    match st a with
    | some (Node.file _ _) => none
    | some (Node.dir _) => mkdirChain perm st rest
    | none => mkdirChain perm (storeSet st a (Node.dir perm)) rest

/-- Models `os.MkdirAll(p, perm)`. -/
def mkdirAll (st : Store) (p : String) (perm : Nat) : Option Store :=
  mkdirChain perm st (ancestorChain p)

/-- Embeds `validateTarPath` (unpack file): empty and `.` names pass;
absolute names and names with a `..` segment are rejected (the
`strings.Contains` test is a fast path before the segment scan). -/
def validateTarPath (name : String) : Option String :=
  if name = "" ∨ name = "." then none
  else if goIsAbs name then some ("absolute path in tar: " ++ name)
  else if strContains name ".." then
    if ".." ∈ pathComps name then
      some ("path traversal in tar: " ++ name)
    else none
  else none

/-- Embeds `extractFile`: create the parent chain with 0755, then
`os.OpenFile(target, O_CREATE|O_WRONLY|O_TRUNC, hdr.Mode&0777)`: on a
directory it fails, an existing file is truncated and rewritten
keeping its permission bits, a new file is created with the given
permission bits (umask 0). -/
def extractFile (st : Store) (target : String) (mode : Nat)
    (body : List Nat) : Option Store :=
  match mkdirAll st (goDir target) 493 with
  | none => none
  | some st1 =>
    match st1 target with
    | some (Node.dir _) => none
    | some (Node.file m _) =>
      some (storeSet st1 target (Node.file m body))
    | none =>
      some (storeSet st1 target (Node.file (mode % 512) body))

/-- Result of an unpack run: final file system, count of regular
files written, and the returned error. -/
structure UnpackResult where
  store : Store
  count : Nat
  err : Option String

/-- The header loop of `UnpackTar`: clean the name, validate it,
join and containment-check against the extract root, then create a
directory (mode 0755), extract a regular file, or skip. -/
def unpackEntries (dir : String) :
    List TarEntry → Store → Nat → UnpackResult
  | [], st, count => ⟨st, count, none⟩
  | hdr :: rest, st, count =>
    let name := pathClean hdr.name
    match validateTarPath name with
    | some msg => ⟨st, count, some msg⟩
    | none =>
      if isWithinDirUnpack dir (goJoin dir name) = false then
        ⟨st, count, some ("path escapes dir: " ++ name)⟩
      else
        match hdr.typeflag with
        | TarType.dir =>
          match mkdirAll st (goJoin dir name) 493 with
          | none => ⟨st, count, some ("mkdir " ++ name ++ ": error")⟩
          | some st2 => unpackEntries dir rest st2 count
        | TarType.reg =>
          match extractFile st (goJoin dir name) hdr.mode hdr.body with
          | none =>
            ⟨st, count, some ("write " ++ hdr.name ++ ": error")⟩
          | some st2 => unpackEntries dir rest st2 (count + 1)
        | TarType.other => unpackEntries dir rest st count

/-- Embeds `UnpackTar` (unpack file): create the extract root, then
process the entry stream sequentially.  The gzip layer selected by
`compress` is a faithful codec and invisible at the entry level. -/
def UnpackTar (entries : List TarEntry) (dir : String)
    (compress : Bool) (st : Store) : UnpackResult :=
  match mkdirAll st dir 493 with
  | none => ⟨st, 0, some "create dir: error"⟩
  | some st1 => unpackEntries dir entries st1 0

/-- Empty extract-side file system. -/
def emptyStore : Store := fun _ => none

example :
    (UnpackTar [⟨"a/", TarType.dir, 493, []⟩,
      ⟨"a/c", TarType.reg, 420, [7, 8]⟩] "out" true emptyStore).err
      = none := by decide
example :
    (UnpackTar [⟨"a/", TarType.dir, 493, []⟩,
      ⟨"a/c", TarType.reg, 420, [7, 8]⟩] "out" true
        emptyStore).store "out/a/c" =
      some (Node.file 420 [7, 8]) := by decide
example :
    (UnpackTar [⟨"../evil", TarType.reg, 420, [1]⟩] "out" true
      emptyStore).err ≠ none := by decide
example :
    (UnpackTar [⟨"/abs", TarType.reg, 420, [1]⟩] "out" true
      emptyStore).err ≠ none := by decide
example :
    (UnpackTar [⟨"x", TarType.other, 420, [1]⟩] "out" true
      emptyStore).count = 0 := by decide

/-! ## C2 — unpack behaviour -/

/-- Re-join the chunks produced by `splitSlash` with `/`. -/
def joinChunks : List (List Char) → List Char
  | [] => []
  | [c] => c
  | c :: rest => c ++ '/' :: joinChunks rest

theorem splitSlash_joinChunks : ∀ l : List Char,
    joinChunks (splitSlash l) = l
  | [] => rfl
  | c :: cs => by
    by_cases hc : c = '/'
    · subst hc
      rw [splitSlash_cons_slash]
      cases h : splitSlash cs with
      | nil => exact absurd h (splitSlash_ne_nil cs)
      | cons x xs =>
        show joinChunks ([] :: x :: xs) = '/' :: cs
        show [] ++ '/' :: joinChunks (x :: xs) = '/' :: cs
        rw [← h, splitSlash_joinChunks cs]
        rfl
    · rw [splitSlash_cons_other hc]
      cases h : splitSlash cs with
      | nil => exact absurd h (splitSlash_ne_nil cs)
      | cons x xs =>
        have hjoin := splitSlash_joinChunks cs
        rw [h] at hjoin
        cases xs with
        | nil =>
          show c :: x = c :: cs
          rw [show joinChunks [x] = x from rfl] at hjoin
          rw [hjoin]
        | cons y ys =>
          show (c :: x) ++ '/' :: joinChunks (y :: ys) = c :: cs
          rw [List.cons_append]
          rw [show x ++ '/' :: joinChunks (y :: ys) =
            joinChunks (x :: y :: ys) from rfl]
          rw [hjoin]

theorem chunk_infix_join : ∀ {chunks : List (List Char)}
    {ch : List Char}, ch ∈ chunks → ch <:+: joinChunks chunks := by
  intro chunks
  induction chunks with
  | nil => intro ch h; simp at h
  | cons c rest ih =>
    intro ch h
    rcases List.mem_cons.mp h with rfl | h2
    · cases rest with
      | nil => exact List.infix_rfl
      | cons y ys =>
        show ch <:+: ch ++ '/' :: joinChunks (y :: ys)
        exact (List.prefix_append ch _).isInfix
    · cases rest with
      | nil => simp at h2
      | cons y ys =>
        show ch <:+: c ++ '/' :: joinChunks (y :: ys)
        have hi := ih h2
        have : ch <:+: '/' :: joinChunks (y :: ys) :=
          hi.trans (List.suffix_cons '/' _).isInfix
        exact this.trans (List.suffix_append c _).isInfix

theorem mem_pathComps_contains {s c : String}
    (h : c ∈ pathComps s) : strContains s c = true := by
  rw [strContains_iff]
  unfold pathComps at h
  obtain ⟨ch, hch, rfl⟩ := List.mem_map.mp h
  show ch <:+: s.data
  rw [← splitSlash_joinChunks s.data]
  exact chunk_infix_join hch

theorem validateTarPath_eq_spec (name : String) :
    validateTarPath name =
      if goIsAbs name then some ("absolute path in tar: " ++ name)
      else if ".." ∈ pathComps name then
        some ("path traversal in tar: " ++ name)
      else none := by
  unfold validateTarPath
  by_cases h0 : name = "" ∨ name = "."
  · rw [if_pos h0]
    rcases h0 with rfl | rfl
    · decide
    · decide
  · rw [if_neg h0]
    by_cases habs : goIsAbs name = true
    · rw [if_pos habs, if_pos habs]
    · rw [if_neg habs, if_neg habs]
      by_cases hc : strContains name ".." = true
      · rw [if_pos hc]
      · rw [if_neg hc, if_neg (fun hdd =>
          hc (mem_pathComps_contains hdd))]

/-- The unpack loop exactly as the (amended) claim words it: per
header, clean the name; abort when the cleaned name is absolute or
has a `..` segment, or when its join with the extract root does not
remain under the root; directory headers create directories with mode
0755 regardless of the archive mode; regular-file headers create
parents as needed and write the file — created with permission bits
`mode & 0777`, an existing file truncated keeping its bits; any other
typeflag is skipped without effect. -/
def unpackEntriesSpec (dir : String) :
    List TarEntry → Store → Nat → UnpackResult
  | [], st, count => ⟨st, count, none⟩
  | hdr :: rest, st, count =>
    let name := pathClean hdr.name
    if goIsAbs name then
      ⟨st, count, some ("absolute path in tar: " ++ name)⟩
    else if ".." ∈ pathComps name then
      ⟨st, count, some ("path traversal in tar: " ++ name)⟩
    else if IsWithinDir dir (goJoin dir name) = false then
      ⟨st, count, some ("path escapes dir: " ++ name)⟩
    else
      match hdr.typeflag with
      | TarType.dir =>
        match mkdirAll st (goJoin dir name) 493 with
        | none => ⟨st, count, some ("mkdir " ++ name ++ ": error")⟩
        | some st2 => unpackEntriesSpec dir rest st2 count
      | TarType.reg =>
        match extractFile st (goJoin dir name) hdr.mode hdr.body with
        | none =>
          ⟨st, count, some ("write " ++ hdr.name ++ ": error")⟩
        | some st2 => unpackEntriesSpec dir rest st2 (count + 1)
      | TarType.other => unpackEntriesSpec dir rest st count

/-- Spec-level `UnpackTar` (claim wording). -/
def UnpackTarSpec (entries : List TarEntry) (dir : String)
    (compress : Bool) (st : Store) : UnpackResult :=
  match mkdirAll st dir 493 with
  | none => ⟨st, 0, some "create dir: error"⟩
  | some st1 => unpackEntriesSpec dir entries st1 0

theorem unpackEntries_eq_spec (dir : String) :
    ∀ (entries : List TarEntry) (st : Store) (count : Nat),
    unpackEntries dir entries st count =
      unpackEntriesSpec dir entries st count
  | [], st, count => rfl
  | hdr :: rest, st, count => by
    rw [unpackEntries, unpackEntriesSpec]
    rw [validateTarPath_eq_spec]
    by_cases habs : goIsAbs (pathClean hdr.name) = true
    · rw [if_pos habs, if_pos habs]
    · rw [if_neg habs, if_neg habs]
      by_cases hdd : ".." ∈ pathComps (pathClean hdr.name)
      · rw [if_pos hdd, if_pos hdd]
      · rw [if_neg hdd, if_neg hdd]
        show (if isWithinDirUnpack dir _ = false then _ else _) = _
        unfold isWithinDirUnpack
        by_cases hw :
            IsWithinDir dir (goJoin dir (pathClean hdr.name)) = false
        · rw [if_pos hw, if_pos hw]
        · rw [if_neg hw, if_neg hw]
          cases hdr.typeflag with
          | dir =>
            cases mkdirAll st (goJoin dir (pathClean hdr.name)) 493
            · rfl
            · exact unpackEntries_eq_spec dir rest _ count
          | reg =>
            cases extractFile st (goJoin dir (pathClean hdr.name))
              hdr.mode hdr.body
            · rfl
            · exact unpackEntries_eq_spec dir rest _ (count + 1)
          | other => exact unpackEntries_eq_spec dir rest st count

/-- **C2 counterexample** — the claim asserts every regular file
written gets permission bits `header mode & 0777`; but over an
existing file the mode argument of `os.OpenFile` is ignored: the file
is truncated and rewritten with its OLD permission bits.  Here a
pre-existing `out/a` with mode 0600 receives a header with mode 0755
and keeps mode 0600. -/
theorem unpackTar_existing_mode_counterexample :
    (UnpackTar [⟨"a", TarType.reg, 493, [9]⟩] "out" true
      (storeSet (storeSet emptyStore "out" (Node.dir 493))
        "out/a" (Node.file 384 [1, 2, 3]))).err = none ∧
    (UnpackTar [⟨"a", TarType.reg, 493, [9]⟩] "out" true
      (storeSet (storeSet emptyStore "out" (Node.dir 493))
        "out/a" (Node.file 384 [1, 2, 3]))).store "out/a" =
      some (Node.file 384 [9]) ∧
    384 ≠ 493 % 512 := by decide

/-- **C2 (amended)** — `UnpackTar` processes headers sequentially and
behaves exactly as the spec-level loop `UnpackTarSpec` written from
the claim: it aborts on a header whose cleaned name is absolute or
contains a `..` segment or whose join with the extract root does not
remain under that root; directories are created with mode 0755
regardless of the archive mode; a regular file is created with
permission bits `header mode & 0777` — an existing file at that path
is truncated and rewritten but keeps its previous permission bits —
and all other typeflags are skipped without effect. -/
theorem unpackTar_eq_spec (entries : List TarEntry) (dir : String)
    (compress : Bool) (st : Store) :
    UnpackTar entries dir compress st =
      UnpackTarSpec entries dir compress st := by
  unfold UnpackTar UnpackTarSpec
  cases mkdirAll st dir 493 with
  | none => rfl
  | some st1 => exact unpackEntries_eq_spec dir entries st1 0

/-! ## `cmd/spryncd/main.go` — handleDelete (C9) -/

/-- Embeds `validateDir` (`cmd/spryncd/main.go`): the request dir must
be non-empty, exist and be a directory.  `os.Stat` is resolved on the
cleaned path in the canonical-keyed store. -/
def validateDir (st : Store) (dir : String) : Option String :=
  if dir = "" then some "missing dir"
  else
    match st (pathClean dir) with
    | none => some ("dir not found: " ++ dir)
    | some (Node.file _ _) => some ("not a directory: " ++ dir)
    | some (Node.dir _) => none

/-- Models `os.RemoveAll(full)`: removes the node at `full` and
everything below it; per its contract it succeeds (returns nil) when
nothing exists at that path.  Permission failures are outside the
file-system model. -/
def removeAll (st : Store) (full : String) : Store :=
  fun s =>
    if s = full ∨ strStartsWith s (full ++ "/") = true then none
    else st s

/-- The first (validation) loop of `handleDelete`: every path must
validate and its join must stay under the request dir. -/
def validateDeletePaths (dir : String) : List String → Option String
  | [] => none
  | p :: rest =>
    match ValidateRelPath p with
    | some msg => some ("invalid path: " ++ msg)
    | none =>
      if IsWithinDir dir (goJoin dir p) = false then
        some ("path escapes dir: " ++ p)
      else validateDeletePaths dir rest

/-- Result of a delete request: file system, reported count, fatal
error. -/
structure DeleteResult where
  store : Store
  count : Nat
  err : Option String

/-- Embeds `handleDelete` (`cmd/spryncd/main.go`): validate the dir,
validate every path, then `os.RemoveAll` each path in order, counting
each successful removal (removal of a missing path succeeds and is
counted). -/
def handleDelete (st : Store) (dir : String) (paths : List String) :
    DeleteResult :=
  match validateDir st dir with
  | some msg => ⟨st, 0, some msg⟩
  | none =>
    match validateDeletePaths dir paths with
    | some msg => ⟨st, 0, some msg⟩
    | none =>
      let final := paths.foldl
        (fun acc p => (removeAll acc.1 (goJoin dir p), acc.2 + 1))
        (st, 0)
      ⟨final.1, final.2, none⟩

/-- **C9** — for an existing directory, a delete request with a valid
relative path naming a non-existent file succeeds and counts that
path, and a delete request with an empty path list returns count 0
with no error. -/
theorem handleDelete_nonexistent_and_empty (st : Store)
    (dir p : String) (hdir : validateDir st dir = none)
    (hp : ValidateRelPath p = none)
    (hnx : st (goJoin dir p) = none) :
    ((handleDelete st dir [p]).err = none ∧
      (handleDelete st dir [p]).count = 1) ∧
    ((handleDelete st dir []).err = none ∧
      (handleDelete st dir []).count = 0) := by
  unfold handleDelete
  rw [hdir]
  constructor
  · have hval : validateDeletePaths dir [p] = none := by
      have hw := isWithinDir_goJoin dir hp
      simp [validateDeletePaths, hp, hw]
    rw [hval]
    exact ⟨rfl, rfl⟩
  · exact ⟨rfl, rfl⟩

/-- Concrete store with a single directory `d`. -/
def exDeleteStore : Store := storeSet emptyStore "d" (Node.dir 493)

/-- Witness for `handleDelete_nonexistent_and_empty`: directory `d`
exists, `x` validates and does not exist under it. -/
theorem handleDelete_nonexistent_and_empty_witness :
    validateDir exDeleteStore "d" = none ∧
    ValidateRelPath "x" = none ∧
    exDeleteStore (goJoin "d" "x") = none ∧
    (((handleDelete exDeleteStore "d" ["x"]).err = none ∧
      (handleDelete exDeleteStore "d" ["x"]).count = 1) ∧
    ((handleDelete exDeleteStore "d" []).err = none ∧
      (handleDelete exDeleteStore "d" []).count = 0)) :=
  ⟨by decide, by decide, by decide,
    handleDelete_nonexistent_and_empty exDeleteStore "d" "x"
      (by decide) (by decide) (by decide)⟩

/-! ## C6 — pack/unpack round trip: canonical-path toolkit -/

/-- A good component list: non-empty, every component canonical
(`NiceComp`) and free of null characters — the shape of the component
list of a validated path already in cleaned form. -/
def GoodComps (m : List String) : Prop :=
  m ≠ [] ∧ ∀ c ∈ m, NiceComp c ∧ Char.ofNat 0 ∉ c.data

theorem strContainsNul_eq_false {s : String}
    (h : Char.ofNat 0 ∉ s.data) : strContainsNul s = false := by
  unfold strContainsNul
  rw [List.any_eq_false]
  intro c hc he
  simp only [decide_eq_true_eq] at he
  exact h (he ▸ hc)

theorem comp_nul_free {s c : String} (hs : strContainsNul s = false)
    (hc : c ∈ pathComps s) : Char.ofNat 0 ∉ c.data := by
  intro hmem
  unfold pathComps at hc
  obtain ⟨ch, hch, rfl⟩ := List.mem_map.mp hc
  have hinf : ch <:+: s.data := by
    rw [← splitSlash_joinChunks s.data]
    exact chunk_infix_join hch
  have hin : Char.ofNat 0 ∈ s.data := hinf.subset hmem
  unfold strContainsNul at hs
  rw [List.any_eq_false] at hs
  exact hs _ hin (by simp)

theorem joinComps_nul_free : ∀ {m : List String},
    (∀ c ∈ m, Char.ofNat 0 ∉ c.data) →
    Char.ofNat 0 ∉ (joinComps m).data
  | [], _ => by
    intro h
    simp [joinComps] at h
  | x :: rest, h => by
    rw [joinComps_data_cons]
    intro hmem
    rcases List.mem_append.mp hmem with h1 | h2
    · exact h x (List.mem_cons_self x rest) h1
    · by_cases hr : rest = []
      · rw [if_pos hr] at h2
        simp at h2
      · rw [if_neg hr] at h2
        rcases List.mem_cons.mp h2 with he | h3
        · exact absurd he (by decide)
        · exact joinComps_nul_free
            (fun c hc => h c (List.mem_cons_of_mem x hc)) h3

theorem renderPath_false_ne_nil {m : List String} (h : m ≠ []) :
    renderPath false m = joinComps m := by
  unfold renderPath
  rw [if_neg (by simp), if_neg h]

theorem joinComps_pathClean {m : List String} (hne : m ≠ [])
    (hnice : ∀ c ∈ m, NiceComp c) :
    pathClean (joinComps m) = joinComps m := by
  have h := @pathClean_render false m (cleanShape_of_nice hnice)
  rwa [renderPath_false_ne_nil hne] at h

theorem cleanComps_nice {r : Bool} {m : List String}
    (h : ∀ c ∈ m, NiceComp c) : cleanComps r m = m := by
  unfold cleanComps
  rw [foldl_cleanStack_nice r m [] h]
  simp

theorem validateRelPath_goodComps {m : List String} (h : GoodComps m) :
    ValidateRelPath (joinComps m) = none := by
  obtain ⟨hne, hall⟩ := h
  obtain ⟨x, xs, rfl⟩ : ∃ x xs, m = x :: xs := by
    cases hmm : m with
    | nil => exact absurd hmm hne
    | cons x xs => exact ⟨x, xs, rfl⟩
  have hx := (hall x (List.mem_cons_self x xs)).1
  have hb := joinComps_nice_head xs hx.1 hx.2.1 hx.2.2.1 hx.2.2.2
  rw [validateRelPath_none_iff]
  have hclean := joinComps_pathClean (show x :: xs ≠ [] by simp)
    (fun c hc => (hall c hc).1)
  refine ⟨hb.2.1, ?_, hb.1, ?_, ?_, ?_⟩
  · exact strContainsNul_eq_false
      (joinComps_nul_free (fun c hc => (hall c hc).2))
  · rw [hclean]; exact hb.2.2.1
  · rw [hclean]; exact hb.2.2.2.1
  · rw [hclean]; exact hb.2.2.2.2

/-- A validated path in cleaned form has good components and is the
join of its own component list. -/
theorem canon_comps {s : String} (h1 : ValidateRelPath s = none)
    (h2 : pathClean s = s) :
    GoodComps (pathComps s) ∧ s = joinComps (pathComps s) := by
  obtain ⟨habs, hpne, hne, hnice, hrender⟩ := validated_comps h1
  have hs : s = joinComps (cleanComps false (pathComps s)) := by
    rw [← hrender, h2]
  have hcc : pathComps s = cleanComps false (pathComps s) := by
    conv_lhs => rw [hs]
    exact pathComps_joinComps hne (fun c hc => (hnice c hc).2.2.2)
  have hnul : strContainsNul s = false :=
    ((validateRelPath_none_iff s).mp h1).2.1
  refine ⟨⟨by rw [hcc]; exact hne, ?_⟩, by rw [hcc]; exact hs⟩
  intro c hc
  refine ⟨?_, comp_nul_free hnul hc⟩
  rw [hcc] at hc
  exact hnice c hc

theorem goJoin_canon {u p : String}
    (hu1 : ValidateRelPath u = none) (hu2 : pathClean u = u)
    (hp1 : ValidateRelPath p = none) (hp2 : pathClean p = p) :
    goJoin u p = joinComps (pathComps u ++ pathComps p) := by
  obtain ⟨hgu, hju⟩ := canon_comps hu1 hu2
  obtain ⟨hgp, hjp⟩ := canon_comps hp1 hp2
  have hune : u ≠ "" := ((validateRelPath_none_iff u).mp hu1).1
  have habs : goIsAbs u = false :=
    ((validateRelPath_none_iff u).mp hu1).2.2.1
  rw [goJoin_validated u hp1, if_neg hune, habs,
    cleanComps_nice (fun c hc => (hgu.2 c hc).1),
    cleanComps_nice (fun c hc => (hgp.2 c hc).1),
    renderPath_false_ne_nil
      (fun hh => hgu.1 (List.append_eq_nil.mp hh).1)]

theorem goDir_joinComps {m : List String}
    (hnice : ∀ c ∈ m, NiceComp c) (hlen : 2 ≤ m.length) :
    goDir (joinComps m) = joinComps m.dropLast := by
  have hne : m ≠ [] := by
    intro hh
    rw [hh] at hlen
    simp at hlen
  have hsl : ∀ c ∈ m, '/' ∉ c.data := fun c hc => (hnice c hc).2.2.2
  have hcomps : pathComps (joinComps m) = m :=
    pathComps_joinComps hne hsl
  have hdlne : m.dropLast ≠ [] := by
    intro hh
    have hl := congrArg List.length hh
    rw [List.length_dropLast] at hl
    simp at hl
    omega
  unfold goDir
  dsimp only
  rw [hcomps, if_neg (by omega),
    (joinComps_shape_basic (cleanShape_of_nice hnice) hne).1,
    cleanComps_nice
      (fun c hc => hnice c ((List.dropLast_sublist m).subset hc)),
    renderPath_false_ne_nil hdlne]

theorem ancestorChain_canon {m : List String} (hne : m ≠ [])
    (hnice : ∀ c ∈ m, NiceComp c) :
    ancestorChain (joinComps m) = progressiveJoins m := by
  have hb := joinComps_shape_basic (cleanShape_of_nice hnice) hne
  simp only [ancestorChain, joinComps_pathClean hne hnice]
  rw [if_neg hb.2.2, if_neg (by simp [hb.1]),
    pathComps_joinComps hne (fun c hc => (hnice c hc).2.2.2)]

theorem mem_progressiveJoins {s : String} {m : List String} :
    s ∈ progressiveJoins m ↔
      ∃ k, 1 ≤ k ∧ k ≤ m.length ∧ s = joinComps (m.take k) := by
  unfold progressiveJoins
  rw [List.mem_map]
  constructor
  · rintro ⟨i, hi, rfl⟩
    rw [List.mem_range] at hi
    exact ⟨i + 1, by omega, by omega, rfl⟩
  · rintro ⟨k, h1, h2, rfl⟩
    refine ⟨k - 1, by rw [List.mem_range]; omega, ?_⟩
    have hk : k - 1 + 1 = k := by omega
    rw [hk]

theorem joinComps_inj {a b : List String} (ha : a ≠ []) (hb : b ≠ [])
    (hsa : ∀ c ∈ a, '/' ∉ c.data) (hsb : ∀ c ∈ b, '/' ∉ c.data)
    (h : joinComps a = joinComps b) : a = b := by
  rw [← pathComps_joinComps ha hsa, ← pathComps_joinComps hb hsb, h]

theorem take_append_split {α : Type} {U V : List α} {k : Nat} :
    ((U ++ V).take k = U.take k ∧ k ≤ U.length) ∨
    ((U ++ V).take k = U ++ V.take (k - U.length) ∧ U.length < k) := by
  by_cases h : k ≤ U.length
  · exact Or.inl ⟨List.take_append_of_le_length h, h⟩
  · refine Or.inr ⟨?_, by omega⟩
    rw [List.take_append_eq_append_take, List.take_all_of_le (by omega)]

/-- `mkdirChain` succeeds when no listed path holds a file; it keeps
every existing node and creates a 0755 directory exactly at the listed
paths that held nothing. -/
theorem mkdirChain_ok (perm : Nat) : ∀ {l : List String} {st : Store},
    (∀ a ∈ l, ∀ mo da, st a ≠ some (Node.file mo da)) →
    ∃ st2, mkdirChain perm st l = some st2 ∧
      ∀ s, st2 s = st s ∨
        (s ∈ l ∧ st s = none ∧ st2 s = some (Node.dir perm))
  | [], st, _ => ⟨st, rfl, fun _ => Or.inl rfl⟩
  | a :: rest, st, h => by
    rw [mkdirChain]
    cases ha : st a with
    | none =>
      obtain ⟨st2, hrun, hdesc⟩ := @mkdirChain_ok perm rest
        (storeSet st a (Node.dir perm)) (by
          intro b hb mo da
          unfold storeSet
          by_cases hba : b = a
          · rw [if_pos hba]
            simp
          · rw [if_neg hba]
            exact h b (List.mem_cons_of_mem a hb) mo da)
      refine ⟨st2, hrun, ?_⟩
      intro s
      rcases hdesc s with h1 | ⟨h1, h2, h3⟩
      · by_cases hsa : s = a
        · refine Or.inr ⟨?_, ?_, ?_⟩
          · rw [hsa]
            exact List.mem_cons_self a rest
          · rw [hsa]
            exact ha
          · rw [h1]
            unfold storeSet
            rw [if_pos hsa]
        · left
          rw [h1]
          unfold storeSet
          rw [if_neg hsa]
      · refine Or.inr ⟨List.mem_cons_of_mem a h1, ?_, h3⟩
        unfold storeSet at h2
        by_cases hsa : s = a
        · rw [if_pos hsa] at h2
          cases h2
        · rwa [if_neg hsa] at h2
    | some n =>
      cases n with
      | dir mo =>
        obtain ⟨st2, hrun, hdesc⟩ := @mkdirChain_ok perm rest st
          (fun b hb => h b (List.mem_cons_of_mem a hb))
        refine ⟨st2, hrun, ?_⟩
        intro s
        rcases hdesc s with h1 | ⟨h1, h2, h3⟩
        · exact Or.inl h1
        · exact Or.inr ⟨List.mem_cons_of_mem a h1, h2, h3⟩
      | file mo da =>
        exact absurd ha (h a (List.mem_cons_self a rest) mo da)

/-- `os.MkdirAll` on a canonical relative path: succeeds when no
ancestor holds a file, keeps every existing node and creates 0755
directories exactly at the missing ancestors. -/
theorem mkdirAll_canon {m : List String} (hne : m ≠ [])
    (hnice : ∀ c ∈ m, NiceComp c) {st : Store}
    (h : ∀ k, 1 ≤ k → k ≤ m.length → ∀ mo da,
      st (joinComps (m.take k)) ≠ some (Node.file mo da)) :
    ∃ st2, mkdirAll st (joinComps m) 493 = some st2 ∧
      ∀ s, st2 s = st s ∨
        ((∃ k, 1 ≤ k ∧ k ≤ m.length ∧ s = joinComps (m.take k)) ∧
          st s = none ∧ st2 s = some (Node.dir 493)) := by
  unfold mkdirAll
  rw [ancestorChain_canon hne hnice]
  obtain ⟨st2, hrun, hdesc⟩ := @mkdirChain_ok 493 (progressiveJoins m)
    st (by
      intro a hamem mo da
      obtain ⟨k, hk1, hk2, rfl⟩ := mem_progressiveJoins.mp hamem
      exact h k hk1 hk2 mo da)
  refine ⟨st2, hrun, ?_⟩
  intro s
  rcases hdesc s with h1 | ⟨h1, h2, h3⟩
  · exact Or.inl h1
  · exact Or.inr ⟨mem_progressiveJoins.mp h1, h2, h3⟩

/-- The regular-file entry `addFileToTar` emits for a listed path
(total version: a dummy entry when the open fails, which the callers
exclude). -/
def fileEntry (fs : PackFS) (dir p : String) : TarEntry :=
  (addFileToTar fs (goJoin dir p) p).getD ⟨p, TarType.reg, 0, []⟩

/-- When every listed path validates and opens, the pack loop
succeeds and appends exactly one regular-file entry per path, in
order. -/
theorem packFiles_all_ok {fs : PackFS} {dir : String} :
    ∀ {ps : List String} {written : List TarEntry} {count : Nat},
    (∀ p ∈ ps, ValidateRelPath p = none ∧
      (fs (goJoin dir p)).isSome = true) →
    (packFiles fs dir ps written count).err = none ∧
    (packFiles fs dir ps written count).written =
      written ++ ps.map (fileEntry fs dir)
  | [], written, count, _ => ⟨rfl, by simp [packFiles]⟩
  | rel :: rest, written, count, h => by
    have hrel := h rel (List.mem_cons_self rel rest)
    obtain ⟨f, hf⟩ := Option.isSome_iff_exists.mp hrel.2
    have he : addFileToTar fs (goJoin dir rel) rel =
        some ⟨rel, TarType.reg, f.mode % 512, f.data⟩ := by
      unfold addFileToTar
      rw [hf]
    rw [packFiles, hrel.1,
      if_neg (by rw [isWithinDir_goJoin dir hrel.1]; simp), he]
    have ih := @packFiles_all_ok fs dir rest
      (written ++ [⟨rel, TarType.reg, f.mode % 512, f.data⟩])
      (count + 1) (fun p hp => h p (List.mem_cons_of_mem rel hp))
    refine ⟨ih.1, ?_⟩
    rw [ih.2, List.map_cons]
    have hfe : fileEntry fs dir rel =
        ⟨rel, TarType.reg, f.mode % 512, f.data⟩ := by
      unfold fileEntry
      rw [he]
      rfl
    rw [hfe]
    simp

/-- Every collected directory of a canonical listing is the join of a
good component list that is a proper prefix of some listed path's
components. -/
theorem collectDirs_canon {ps : List String}
    (hps : ∀ p ∈ ps, ValidateRelPath p = none ∧ pathClean p = p) :
    ∀ d ∈ collectDirs ps, ∃ ms, GoodComps ms ∧ d = joinComps ms ∧
      ∃ q ∈ ps, ms <+: pathComps q ∧ ms ≠ pathComps q := by
  intro d hd
  rcases collectDirs_fold_mem ps [] hd with h | ⟨p, hp, hpd, hpm⟩
  · simp at h
  obtain ⟨hv, hc⟩ := hps p hp
  obtain ⟨⟨hPne, hPgood⟩, hPjoin⟩ := canon_comps hv hc
  by_cases hlen : (pathComps p).length ≤ 1
  · exfalso
    apply hpd
    unfold goDir
    dsimp only
    rw [if_pos hlen]
  · have h2 : 2 ≤ (pathComps p).length := by omega
    have hgd1 : goDir p = joinComps ((pathComps p).dropLast) := by
      conv_lhs => rw [hPjoin]
      exact goDir_joinComps (fun c hc2 => (hPgood c hc2).1) h2
    have hdlne : (pathComps p).dropLast ≠ [] := by
      intro hh
      have hl := congrArg List.length hh
      rw [List.length_dropLast] at hl
      simp at hl
      omega
    have hgd2 : pathComps (goDir p) = (pathComps p).dropLast := by
      rw [hgd1]
      exact pathComps_joinComps hdlne (fun c hc2 =>
        (hPgood c ((List.dropLast_sublist _).subset hc2)).1.2.2.2)
    rw [hgd2, mem_progressiveJoins] at hpm
    obtain ⟨k, hk1, hk2, rfl⟩ := hpm
    rw [List.length_dropLast] at hk2
    refine ⟨((pathComps p).dropLast).take k, ⟨?_, ?_⟩, rfl, p, hp,
      ?_, ?_⟩
    · rw [Ne, List.take_eq_nil_iff]
      push_neg
      exact ⟨by omega, hdlne⟩
    · intro c hc2
      exact hPgood c ((List.dropLast_sublist _).subset
        (List.take_subset k _ hc2))
    · exact (List.take_prefix k _).trans (List.dropLast_prefix _)
    · intro hh
      have hl := congrArg List.length hh
      rw [List.length_take, List.length_dropLast] at hl
      have hmin : min k ((pathComps p).length - 1) ≤
          (pathComps p).length - 1 := Nat.min_le_right _ _
      omega

/-- A directory header name `d/` over canonical components cleans
back to `d`. -/
theorem dirName_clean {ms : List String} (hne : ms ≠ [])
    (hnice : ∀ c ∈ ms, NiceComp c) :
    pathClean (joinComps ms ++ "/") = joinComps ms := by
  obtain ⟨x, xs, rfl⟩ : ∃ x xs, ms = x :: xs := by
    cases hmm : ms with
    | nil => exact absurd hmm hne
    | cons x xs => exact ⟨x, xs, rfl⟩
  have hx := hnice x (List.mem_cons_self x xs)
  have hbasic := joinComps_head_basic xs hx.1 hx.2.1 hx.2.2.2
  have hsl : ∀ c ∈ x :: xs, '/' ∉ c.data :=
    fun c hc => (hnice c hc).2.2.2
  have habs : goIsAbs (joinComps (x :: xs) ++ "/") = false := by
    rw [goIsAbs_append_of_ne "/" hbasic.2.1]
    exact hbasic.1
  have hcomps : pathComps (joinComps (x :: xs) ++ "/") =
      (x :: xs) ++ [""] := by
    rw [pathComps_append_trailing_slash, pathComps_joinComps hne hsl]
  unfold pathClean
  rw [if_neg (strAppend_ne_empty_left "/" hbasic.2.1), habs, hcomps,
    cleanComps_append_empty, cleanComps_nice hnice,
    renderPath_false_ne_nil hne]

theorem validateTarPath_join_nice {ms : List String} (hne : ms ≠ [])
    (hnice : ∀ c ∈ ms, NiceComp c) :
    validateTarPath (joinComps ms) = none := by
  rw [validateTarPath_eq_spec,
    if_neg (by
      simp [(joinComps_shape_basic (cleanShape_of_nice hnice) hne).1]),
    if_neg (by
      rw [pathComps_joinComps hne (fun c hc => (hnice c hc).2.2.2)]
      exact fun hdd => (hnice ".." hdd).2.2.1 rfl)]

/-- The store invariant maintained while unpacking a packed stream
into root `R'` (components `U`): a file sits exactly at the
destination key of each processed listed path, carrying the packed
permission bits and bytes; every directory is an ancestor of the
unpack root or the join of `U` with a proper prefix of some listed
path's components. -/
def RoundtripInv (R : String) (fs : PackFS) (U : List String)
    (ps done : List String) (st : Store) : Prop :=
  (∀ s mo da, st s = some (Node.file mo da) →
    ∃ q ∈ done, ∃ f, fs (goJoin R q) = some f ∧
      s = joinComps (U ++ pathComps q) ∧ mo = f.mode % 512 ∧
      da = f.data) ∧
  (∀ q ∈ done, ∃ f, fs (goJoin R q) = some f ∧
    st (joinComps (U ++ pathComps q)) =
      some (Node.file (f.mode % 512) f.data)) ∧
  (∀ s mo, st s = some (Node.dir mo) →
    (∃ k, 1 ≤ k ∧ k ≤ U.length ∧ s = joinComps (U.take k)) ∨
    (∃ q ∈ ps, ∃ D, D ≠ [] ∧ D <+: pathComps q ∧ D ≠ pathComps q ∧
      s = joinComps (U ++ D)))

/-- Processing the directory headers of a packed stream: each one
creates directories only, never fails, and preserves the invariant
with no path processed yet. -/
theorem unpackEntries_dir_phase (R R' : String) (fs : PackFS)
    (ps : List String)
    (hu1 : ValidateRelPath R' = none) (hu2 : pathClean R' = R') :
    ∀ (ds : List String),
    (∀ d ∈ ds, ∃ ms, GoodComps ms ∧ d = joinComps ms ∧
      ∃ q ∈ ps, ms <+: pathComps q ∧ ms ≠ pathComps q) →
    ∀ (rest : List TarEntry) (st : Store) (count : Nat),
    RoundtripInv R fs (pathComps R') ps [] st →
    ∃ st2,
      unpackEntries R'
        (ds.map (fun d => TarEntry.mk (d ++ "/") TarType.dir 493 []) ++
          rest) st count = unpackEntries R' rest st2 count ∧
      RoundtripInv R fs (pathComps R') ps [] st2
  | [], _, rest, st, count, hInv => ⟨st, by simp, hInv⟩
  | d :: ds, hds, rest, st, count, hInv => by
    obtain ⟨ms, hGood, rfl, q, hq, hqpre, hqne⟩ :=
      hds d (List.mem_cons_self d ds)
    have hne := hGood.1
    have hnice : ∀ c ∈ ms, NiceComp c := fun c hc => (hGood.2 c hc).1
    have hvd : ValidateRelPath (joinComps ms) = none :=
      validateRelPath_goodComps hGood
    obtain ⟨hgu, huj⟩ := canon_comps hu1 hu2
    have hUnice : ∀ c ∈ pathComps R', NiceComp c :=
      fun c hc => (hgu.2 c hc).1
    have hname : (TarEntry.mk (joinComps ms ++ "/") TarType.dir 493
        ([] : List Nat)).name = joinComps ms ++ "/" := rfl
    have hwithin : isWithinDirUnpack R'
        (goJoin R' (joinComps ms)) = true := by
      unfold isWithinDirUnpack
      exact isWithinDir_goJoin R' hvd
    have hjoin : goJoin R' (joinComps ms) =
        joinComps (pathComps R' ++ ms) := by
      rw [goJoin_canon hu1 hu2 hvd (joinComps_pathClean hne hnice),
        pathComps_joinComps hne (fun c hc => (hnice c hc).2.2.2)]
    have hall : ∀ c ∈ pathComps R' ++ ms, NiceComp c := by
      intro c hc
      rcases List.mem_append.mp hc with h1 | h1
      · exact hUnice c h1
      · exact hnice c h1
    obtain ⟨st1, hrun, hdesc⟩ := @mkdirAll_canon (pathComps R' ++ ms)
      (fun hh => hgu.1 (List.append_eq_nil.mp hh).1) hall st (by
        intro k hk1 hk2 mo da hfile
        obtain ⟨q2, hq2, -⟩ := hInv.1 _ _ _ hfile
        simp at hq2)
    have hInv1 : RoundtripInv R fs (pathComps R') ps [] st1 := by
      refine ⟨?_, by simp, ?_⟩
      · intro s mo da hfile
        rcases hdesc s with h1 | ⟨-, -, h3⟩
        · rw [h1] at hfile
          exact hInv.1 s mo da hfile
        · rw [h3] at hfile
          cases hfile
      · intro s mo hdir
        rcases hdesc s with h1 | ⟨⟨k, hk1, hk2, hks⟩, -, -⟩
        · rw [h1] at hdir
          exact hInv.2.2 s mo hdir
        · rcases @take_append_split String (pathComps R') ms k with
            ⟨heq, hkle⟩ | ⟨heq, hkgt⟩
          · left
            exact ⟨k, hk1, by
              rw [List.length_append] at hk2
              exact hkle, by rw [hks, heq]⟩
          · right
            refine ⟨q, hq, ms.take (k - (pathComps R').length),
              ?_, ?_, ?_, by rw [hks, heq]⟩
            · rw [Ne, List.take_eq_nil_iff]
              push_neg
              exact ⟨by omega, hne⟩
            · exact (List.take_prefix _ _).trans hqpre
            · intro hh
              have hl := congrArg List.length hh
              rw [List.length_take] at hl
              have hql : ms.length < (pathComps q).length := by
                have := hqpre.length_le
                rcases Nat.lt_or_ge ms.length (pathComps q).length
                  with h | h
                · exact h
                · exact absurd (hqpre.eq_of_length (by omega)) hqne
              have hmin : min (k - (pathComps R').length) ms.length ≤
                  ms.length := Nat.min_le_right _ _
              omega
    rw [List.map_cons, List.cons_append, unpackEntries, hname,
      dirName_clean hne hnice, validateTarPath_join_nice hne hnice]
    rw [if_neg (by rw [hwithin]; simp)]
    rw [hjoin, hrun]
    exact unpackEntries_dir_phase R R' fs ps hu1 hu2 ds
      (fun d2 hd2 => hds d2 (List.mem_cons_of_mem _ hd2))
      rest st1 count hInv1

theorem nice_append {a b : List String} (ha : ∀ c ∈ a, NiceComp c)
    (hb : ∀ c ∈ b, NiceComp c) : ∀ c ∈ a ++ b, NiceComp c := by
  intro c hc
  rcases List.mem_append.mp hc with h | h
  · exact ha c h
  · exact hb c h

theorem nice_slash {a : List String} (h : ∀ c ∈ a, NiceComp c) :
    ∀ c ∈ a, '/' ∉ c.data := fun c hc => (h c hc).2.2.2

theorem append_ne_nil_left {α : Type} {a : List α} (b : List α)
    (h : a ≠ []) : a ++ b ≠ [] :=
  fun hh => h (List.append_eq_nil.mp hh).1

theorem good_take_ne_nil {α : Type} {m : List α} {k : Nat}
    (h1 : 1 ≤ k) (hm : m ≠ []) : m.take k ≠ [] := by
  rw [Ne, List.take_eq_nil_iff]
  push_neg
  exact ⟨by omega, hm⟩

/-- Writing the file of one more listed path at its destination key
extends the invariant, given the parent chain was just created. -/
theorem roundtripInv_extend {R R' : String} {fs : PackFS}
    {ps done : List String}
    (hu1 : ValidateRelPath R' = none) (hu2 : pathClean R' = R')
    (hps : ∀ p ∈ ps, (ValidateRelPath p = none ∧ pathClean p = p) ∧
      (fs (goJoin R p)).isSome = true)
    (hdone : ∀ q ∈ done, q ∈ ps)
    {p : String} (hp : p ∈ ps) {f : GoFile}
    (hf : fs (goJoin R p) = some f)
    {st st1 : Store}
    (hInv : RoundtripInv R fs (pathComps R') ps done st)
    (hdesc : ∀ s, st1 s = st s ∨
      ((∃ k, 1 ≤ k ∧
        k ≤ (pathComps R' ++ (pathComps p).dropLast).length ∧
        s = joinComps
          ((pathComps R' ++ (pathComps p).dropLast).take k)) ∧
        st s = none ∧ st1 s = some (Node.dir 493))) :
    RoundtripInv R fs (pathComps R') ps (done ++ [p])
      (storeSet st1 (joinComps (pathComps R' ++ pathComps p))
        (Node.file (f.mode % 512) f.data)) := by
  obtain ⟨⟨hpv, hpc⟩, -⟩ := hps p hp
  obtain ⟨hgu, huj⟩ := canon_comps hu1 hu2
  obtain ⟨hgp, hpj⟩ := canon_comps hpv hpc
  have hUnice : ∀ c ∈ pathComps R', NiceComp c :=
    fun c hc => (hgu.2 c hc).1
  have hPnice : ∀ c ∈ pathComps p, NiceComp c :=
    fun c hc => (hgp.2 c hc).1
  have hUPnice := nice_append hUnice hPnice
  refine ⟨?_, ?_, ?_⟩
  · intro s mo da hfile
    unfold storeSet at hfile
    by_cases hsT : s = joinComps (pathComps R' ++ pathComps p)
    · rw [if_pos hsT] at hfile
      injection hfile with hnode
      injection hnode with hmo hda
      exact ⟨p, List.mem_append_right _ (List.mem_cons_self p []),
        f, hf, hsT, hmo.symm, hda.symm⟩
    · rw [if_neg hsT] at hfile
      rcases hdesc s with h1 | ⟨-, -, h3⟩
      · rw [h1] at hfile
        obtain ⟨q, hq, f2, hf2, hkey, hmo, hda⟩ :=
          hInv.1 s mo da hfile
        exact ⟨q, List.mem_append_left _ hq, f2, hf2, hkey, hmo, hda⟩
      · rw [h3] at hfile
        cases hfile
  · intro q hqmem
    rcases List.mem_append.mp hqmem with hq | hq
    · obtain ⟨f2, hf2, hkey⟩ := hInv.2.1 q hq
      refine ⟨f2, hf2, ?_⟩
      unfold storeSet
      by_cases hKT : joinComps (pathComps R' ++ pathComps q) =
          joinComps (pathComps R' ++ pathComps p)
      · have hqps := hdone q hq
        obtain ⟨⟨hqv, hqc⟩, -⟩ := hps q hqps
        obtain ⟨hgq, hqj⟩ := canon_comps hqv hqc
        have hlists := joinComps_inj
          (append_ne_nil_left _ hgu.1) (append_ne_nil_left _ hgu.1)
          (nice_slash (nice_append hUnice
            (fun c hc => (hgq.2 c hc).1)))
          (nice_slash hUPnice) hKT
        have hQP : pathComps q = pathComps p :=
          List.append_cancel_left hlists
        have hqp : q = p := by rw [hqj, hpj, hQP]
        rw [if_pos hKT]
        have hfq : fs (goJoin R q) = some f := by
          rw [hqp]
          exact hf
        rw [hf2] at hfq
        injection hfq with hff
        rw [hff]
      · rw [if_neg hKT]
        rcases hdesc (joinComps (pathComps R' ++ pathComps q)) with
          h1 | ⟨-, h2, -⟩
        · rw [h1]
          exact hkey
        · rw [hkey] at h2
          cases h2
    · have hqp : q = p := by simpa using hq
      subst hqp
      refine ⟨f, hf, ?_⟩
      unfold storeSet
      rw [if_pos rfl]
  · intro s mo hdir
    unfold storeSet at hdir
    by_cases hsT : s = joinComps (pathComps R' ++ pathComps p)
    · rw [if_pos hsT] at hdir
      cases hdir
    · rw [if_neg hsT] at hdir
      rcases hdesc s with h1 | ⟨⟨k, hk1, hk2, hks⟩, -, -⟩
      · rw [h1] at hdir
        exact hInv.2.2 s mo hdir
      · rcases @take_append_split String (pathComps R')
          ((pathComps p).dropLast) k with ⟨heq, hkle⟩ | ⟨heq, hkgt⟩
        · left
          exact ⟨k, hk1, hkle, by rw [hks, heq]⟩
        · right
          refine ⟨p, hp,
            ((pathComps p).dropLast).take (k - (pathComps R').length),
            ?_, ?_, ?_, by rw [hks, heq]⟩
          · rw [Ne, List.take_eq_nil_iff]
            push_neg
            refine ⟨by omega, ?_⟩
            intro hh
            rw [List.length_append, hh] at hk2
            simp at hk2
            omega
          · exact (List.take_prefix _ _).trans (List.dropLast_prefix _)
          · intro hh
            have hl := congrArg List.length hh
            rw [List.length_take, List.length_dropLast] at hl
            have hmin : min (k - (pathComps R').length)
                ((pathComps p).length - 1) ≤
                (pathComps p).length - 1 := Nat.min_le_right _ _
            have hPpos : 0 < (pathComps p).length :=
              List.length_pos.mpr hgp.1
            omega

/-- Processing the regular-file entries of a packed stream: each one
extracts successfully and moves its path from the pending list into
the invariant. -/
theorem unpackEntries_reg_phase (R R' : String) (fs : PackFS)
    (ps : List String)
    (hu1 : ValidateRelPath R' = none) (hu2 : pathClean R' = R')
    (hps : ∀ p ∈ ps, (ValidateRelPath p = none ∧ pathClean p = p) ∧
      (fs (goJoin R p)).isSome = true)
    (hpref : ∀ p ∈ ps, ∀ q ∈ ps, pathComps p <+: pathComps q →
      p = q) :
    ∀ (todo done : List String),
    (∀ q ∈ todo, q ∈ ps) → (∀ q ∈ done, q ∈ ps) →
    ∀ (st : Store) (count : Nat),
    RoundtripInv R fs (pathComps R') ps done st →
    (unpackEntries R' (todo.map (fileEntry fs R)) st count).err =
      none ∧
    RoundtripInv R fs (pathComps R') ps (done ++ todo)
      (unpackEntries R' (todo.map (fileEntry fs R)) st count).store
  | [], done, _, _, st, count, hInv => by
    simp only [List.map_nil, unpackEntries, List.append_nil]
    exact ⟨trivial, hInv⟩
  | p :: todo, done, htodo, hdone, st, count, hInv => by
    have hp : p ∈ ps := htodo p (List.mem_cons_self p todo)
    obtain ⟨⟨hpv, hpc⟩, hsome⟩ := hps p hp
    obtain ⟨f, hf⟩ := Option.isSome_iff_exists.mp hsome
    obtain ⟨hgu, huj⟩ := canon_comps hu1 hu2
    obtain ⟨hgp, hpj⟩ := canon_comps hpv hpc
    have hUnice : ∀ c ∈ pathComps R', NiceComp c :=
      fun c hc => (hgu.2 c hc).1
    have hPnice : ∀ c ∈ pathComps p, NiceComp c :=
      fun c hc => (hgp.2 c hc).1
    have hUPnice := nice_append hUnice hPnice
    have hfe : fileEntry fs R p =
        ⟨p, TarType.reg, f.mode % 512, f.data⟩ := by
      unfold fileEntry addFileToTar
      rw [hf]
      rfl
    have hvt : validateTarPath p = none := by
      conv_lhs => rw [hpj]
      exact validateTarPath_join_nice hgp.1 hPnice
    have hwithin : isWithinDirUnpack R' (goJoin R' p) = true := by
      unfold isWithinDirUnpack
      exact isWithinDir_goJoin R' hpv
    have hjoin : goJoin R' p =
        joinComps (pathComps R' ++ pathComps p) :=
      goJoin_canon hu1 hu2 hpv hpc
    have hUPlen : 2 ≤ (pathComps R' ++ pathComps p).length := by
      rw [List.length_append]
      have h1 : 0 < (pathComps R').length := List.length_pos.mpr hgu.1
      have h2 : 0 < (pathComps p).length := List.length_pos.mpr hgp.1
      omega
    have hgdir : goDir (joinComps (pathComps R' ++ pathComps p)) =
        joinComps (pathComps R' ++ (pathComps p).dropLast) := by
      rw [goDir_joinComps hUPnice hUPlen,
        List.dropLast_append_of_ne_nil (pathComps R') hgp.1]
    have hUdlnice : ∀ c ∈ pathComps R' ++ (pathComps p).dropLast,
        NiceComp c :=
      nice_append hUnice
        (fun c hc => hPnice c ((List.dropLast_sublist _).subset hc))
    obtain ⟨st1, hrun, hdesc⟩ := @mkdirAll_canon
      (pathComps R' ++ (pathComps p).dropLast)
      (append_ne_nil_left _ hgu.1) hUdlnice st (by
        intro k hk1 hk2 mo da hfile
        obtain ⟨q, hq, f2, hf2, hkey, -, -⟩ := hInv.1 _ _ _ hfile
        have hqps := hdone q hq
        obtain ⟨⟨hqv, hqc⟩, -⟩ := hps q hqps
        obtain ⟨hgq, hqj⟩ := canon_comps hqv hqc
        have hlists := joinComps_inj
          (good_take_ne_nil hk1 (append_ne_nil_left _ hgu.1))
          (append_ne_nil_left _ hgu.1)
          (nice_slash (fun c hc =>
            hUdlnice c (List.take_subset _ _ hc)))
          (nice_slash (nice_append hUnice
            (fun c hc => (hgq.2 c hc).1)))
          hkey
        rcases @take_append_split String (pathComps R')
          ((pathComps p).dropLast) k with ⟨heq, hkle⟩ | ⟨heq, hkgt⟩
        · rw [heq] at hlists
          have hl := congrArg List.length hlists
          rw [List.length_take, List.length_append] at hl
          have h2 : 0 < (pathComps q).length :=
            List.length_pos.mpr hgq.1
          have hmin : min k (pathComps R').length ≤
              (pathComps R').length := Nat.min_le_right _ _
          omega
        · rw [heq] at hlists
          have hQ : pathComps q =
              ((pathComps p).dropLast).take
                (k - (pathComps R').length) :=
            (List.append_cancel_left hlists).symm
          have hQpre : pathComps q <+: pathComps p := by
            rw [hQ]
            exact (List.take_prefix _ _).trans
              (List.dropLast_prefix _)
          have hqp : q = p := hpref q hqps p hp hQpre
          have hl := congrArg List.length hQ
          rw [hqp, List.length_take, List.length_dropLast] at hl
          have h2 : 0 < (pathComps p).length :=
            List.length_pos.mpr hgp.1
          have hmin : min (k - (pathComps R').length)
              ((pathComps p).length - 1) ≤
              (pathComps p).length - 1 := Nat.min_le_right _ _
          omega)
    have hT1 : st1 (joinComps (pathComps R' ++ pathComps p)) =
        st (joinComps (pathComps R' ++ pathComps p)) := by
      rcases hdesc (joinComps (pathComps R' ++ pathComps p)) with
        h1 | ⟨⟨k, hk1, hk2, hks⟩, -, -⟩
      · exact h1
      · exfalso
        have hlists := joinComps_inj
          (append_ne_nil_left _ hgu.1)
          (good_take_ne_nil hk1 (append_ne_nil_left _ hgu.1))
          (nice_slash hUPnice)
          (nice_slash (fun c hc =>
            hUdlnice c (List.take_subset _ _ hc)))
          hks
        have hl := congrArg List.length hlists
        rw [List.length_append, List.length_take,
          List.length_append, List.length_dropLast] at hl
        have h2 : 0 < (pathComps p).length :=
          List.length_pos.mpr hgp.1
        have hmin : min k ((pathComps R').length +
            ((pathComps p).length - 1)) ≤
            (pathComps R').length + ((pathComps p).length - 1) :=
          Nat.min_le_right _ _
        omega
    have hstcases :
        st (joinComps (pathComps R' ++ pathComps p)) = none ∨
        st (joinComps (pathComps R' ++ pathComps p)) =
          some (Node.file (f.mode % 512) f.data) := by
      cases hst : st (joinComps (pathComps R' ++ pathComps p)) with
      | none => exact Or.inl rfl
      | some n =>
        cases n with
        | dir mo =>
          exfalso
          rcases hInv.2.2 _ _ hst with ⟨k, hk1, hk2, hks⟩ |
            ⟨q, hq, D, hDne, hDpre, hDneq, hkey⟩
          · have hlists := joinComps_inj
              (append_ne_nil_left _ hgu.1)
              (good_take_ne_nil hk1 hgu.1)
              (nice_slash hUPnice)
              (nice_slash (fun c hc =>
                hUnice c (List.take_subset _ _ hc)))
              hks
            have hl := congrArg List.length hlists
            rw [List.length_append, List.length_take] at hl
            have h2 : 0 < (pathComps p).length :=
              List.length_pos.mpr hgp.1
            have hmin : min k (pathComps R').length ≤
                (pathComps R').length := Nat.min_le_right _ _
            omega
          · obtain ⟨⟨hqv, hqc⟩, -⟩ := hps q hq
            obtain ⟨hgq, hqj⟩ := canon_comps hqv hqc
            have hDnice : ∀ c ∈ D, NiceComp c := by
              intro c hc
              exact (hgq.2 c (hDpre.subset hc)).1
            have hlists := joinComps_inj
              (append_ne_nil_left _ hgu.1)
              (append_ne_nil_left _ hgu.1)
              (nice_slash hUPnice)
              (nice_slash (nice_append hUnice hDnice))
              hkey
            have hPD : pathComps p = D :=
              List.append_cancel_left hlists
            have hppre : pathComps p <+: pathComps q := by
              rw [hPD]
              exact hDpre
            have hpq : p = q := hpref p hp q hq hppre
            apply hDneq
            rw [← hPD, hpq]
        | file mo da =>
          right
          obtain ⟨q, hq, f2, hf2, hkey, hmo, hda⟩ :=
            hInv.1 _ _ _ hst
          have hqps := hdone q hq
          obtain ⟨⟨hqv, hqc⟩, -⟩ := hps q hqps
          obtain ⟨hgq, hqj⟩ := canon_comps hqv hqc
          have hlists := joinComps_inj
            (append_ne_nil_left _ hgu.1)
            (append_ne_nil_left _ hgu.1)
            (nice_slash hUPnice)
            (nice_slash (nice_append hUnice
              (fun c hc => (hgq.2 c hc).1)))
            hkey
          have hQP : pathComps q = pathComps p :=
            (List.append_cancel_left hlists).symm
          have hqp : q = p := by rw [hqj, hpj, hQP]
          have hf2f : f2 = f := by
            rw [hqp, hf] at hf2
            exact (Option.some_inj.mp hf2).symm
          rw [hmo, hda, hf2f]
    have hext : extractFile st
        (joinComps (pathComps R' ++ pathComps p))
        (f.mode % 512) f.data =
        some (storeSet st1
          (joinComps (pathComps R' ++ pathComps p))
          (Node.file (f.mode % 512) f.data)) := by
      unfold extractFile
      simp only [hgdir, hrun, hT1]
      rcases hstcases with hst | hst
      · rw [hst, Nat.mod_mod_of_dvd f.mode (dvd_refl 512)]
      · rw [hst]
    have hInv2 := roundtripInv_extend hu1 hu2 hps hdone hp hf
      hInv hdesc
    have ih := unpackEntries_reg_phase R R' fs ps hu1 hu2 hps hpref
      todo (done ++ [p])
      (fun q hq => htodo q (List.mem_cons_of_mem p hq))
      (by
        intro q hq
        rcases List.mem_append.mp hq with h1 | h1
        · exact hdone q h1
        · rw [show q = p by simpa using h1]
          exact hp)
      (storeSet st1 (joinComps (pathComps R' ++ pathComps p))
        (Node.file (f.mode % 512) f.data))
      (count + 1) hInv2
    rw [List.map_cons, hfe, unpackEntries]
    have hname : (TarEntry.mk p TarType.reg (f.mode % 512)
        f.data).name = p := rfl
    rw [hname, hpc, hvt]
    rw [if_neg (by rw [hwithin]; simp)]
    rw [hjoin, hext]
    rw [List.append_cons done p todo]
    exact ih

/-- **C6** — round trip: for every root `R`, every list of relative
paths (each validated, in canonical cleaned form — the shape under
which it can name a regular file — opening to a file under `R`, and
no listed path a proper component-prefix of another, as distinct
regular files cannot nest), and every compress flag, `PackTar`
succeeds and `UnpackTar` of the written stream into a fresh root `R'`
(canonical, over an empty file system) succeeds and reconstructs at
`Join(R', p)` a file whose bytes equal those of `Join(R, p)` and
whose permission bits are its low nine mode bits. -/
theorem packTar_unpackTar_roundtrip
    (R : String) (ps : List String) (fs : PackFS) (compress : Bool)
    (R' : String)
    (hps : ∀ p ∈ ps, (ValidateRelPath p = none ∧ pathClean p = p) ∧
      (fs (goJoin R p)).isSome = true)
    (hpref : ∀ p ∈ ps, ∀ q ∈ ps, pathComps p <+: pathComps q →
      p = q)
    (hu1 : ValidateRelPath R' = none) (hu2 : pathClean R' = R') :
    (PackTar R ps fs compress).err = none ∧
    (UnpackTar (PackTar R ps fs compress).written R' compress
      emptyStore).err = none ∧
    ∀ p ∈ ps, ∀ f, fs (goJoin R p) = some f →
      (UnpackTar (PackTar R ps fs compress).written R' compress
        emptyStore).store (goJoin R' p) =
        some (Node.file (f.mode % 512) f.data) := by
  obtain ⟨hgu, huj⟩ := canon_comps hu1 hu2
  have hUnice : ∀ c ∈ pathComps R', NiceComp c :=
    fun c hc => (hgu.2 c hc).1
  have hpack := @packFiles_all_ok fs R ps
    ((collectDirs ps).map
      (fun d => TarEntry.mk (d ++ "/") TarType.dir 493 [])) 0
    (fun p hp => ⟨(hps p hp).1.1, (hps p hp).2⟩)
  have hPT : PackTar R ps fs compress =
      packFiles fs R ps
        ((collectDirs ps).map
          (fun d => TarEntry.mk (d ++ "/") TarType.dir 493 [])) 0 :=
    rfl
  refine ⟨by rw [hPT]; exact hpack.1, ?_⟩
  obtain ⟨st0, hrun0, hdesc0⟩ := @mkdirAll_canon (pathComps R')
    hgu.1 hUnice emptyStore
    (fun k hk1 hk2 mo da h => Option.noConfusion h)
  have hUT : UnpackTar (PackTar R ps fs compress).written R' compress
      emptyStore =
      unpackEntries R' (PackTar R ps fs compress).written st0 0 := by
    unfold UnpackTar
    have hmk : mkdirAll emptyStore R' 493 = some st0 := by
      conv_lhs => rw [huj]
      exact hrun0
    rw [hmk]
  have hInv0 : RoundtripInv R fs (pathComps R') ps [] st0 := by
    refine ⟨?_, by simp, ?_⟩
    · intro s mo da hfile
      rcases hdesc0 s with h1 | ⟨-, -, h3⟩
      · rw [h1] at hfile
        exact Option.noConfusion hfile
      · rw [h3] at hfile
        cases hfile
    · intro s mo hdir
      rcases hdesc0 s with h1 | ⟨⟨k, hk1, hk2, hks⟩, -, -⟩
      · rw [h1] at hdir
        exact Option.noConfusion hdir
      · exact Or.inl ⟨k, hk1, hk2, hks⟩
  obtain ⟨st1, hphase1, hInv1⟩ := unpackEntries_dir_phase R R' fs ps
    hu1 hu2 (collectDirs ps)
    (collectDirs_canon (fun p hp => (hps p hp).1))
    (ps.map (fileEntry fs R)) st0 0 hInv0
  have hphase2 := unpackEntries_reg_phase R R' fs ps hu1 hu2 hps
    hpref ps [] (fun q hq => hq) (by simp) st1 0 hInv1
  have hstream : (PackTar R ps fs compress).written =
      (collectDirs ps).map
        (fun d => TarEntry.mk (d ++ "/") TarType.dir 493 []) ++
      ps.map (fileEntry fs R) := by
    rw [hPT]
    exact hpack.2
  have hfinal : UnpackTar (PackTar R ps fs compress).written R'
      compress emptyStore =
      unpackEntries R' (ps.map (fileEntry fs R)) st1 0 := by
    rw [hUT, hstream, hphase1]
  refine ⟨by rw [hfinal]; exact hphase2.1, ?_⟩
  intro p hp f hf
  rw [hfinal, goJoin_canon hu1 hu2 (hps p hp).1.1 (hps p hp).1.2]
  have hInvF := hphase2.2
  rw [List.nil_append] at hInvF
  obtain ⟨f2, hf2, hkey⟩ := hInvF.2.1 p hp
  rw [hf] at hf2
  have hff : f = f2 := Option.some_inj.mp hf2
  rw [← hff] at hkey
  exact hkey

/-- Witness for `packTar_unpackTar_roundtrip`: packing `a/c` and `d`
from `root` and unpacking into a fresh `out` reconstructs both files
with their bytes and permission bits. -/
theorem packTar_unpackTar_roundtrip_witness :
    (PackTar "root" ["a/c", "d"] examplePackFS true).err = none ∧
    (UnpackTar (PackTar "root" ["a/c", "d"] examplePackFS
      true).written "out" true emptyStore).err = none ∧
    ∀ p ∈ ["a/c", "d"], ∀ f,
      examplePackFS (goJoin "root" p) = some f →
      (UnpackTar (PackTar "root" ["a/c", "d"] examplePackFS
        true).written "out" true emptyStore).store (goJoin "out" p) =
        some (Node.file (f.mode % 512) f.data) :=
  packTar_unpackTar_roundtrip "root" ["a/c", "d"] examplePackFS true
    "out" (by decide) (by decide) (by decide) (by decide)
